import Mathlib

/-!
# Field ignore normalizer (`util/argo/normalizers/diff_normalizer.go`)

A shallow embedding of `NewIgnoreNormalizer` and `ignoreNormalizer.Normalize`.

* The two functions of the source file are translated statement by statement
  (`NewIgnoreNormalizer`, `ignoreNormalizer.Normalize` and the loops they contain).
* The resource boundary (group/version/kind, name and namespace accessors, whole-document
  serialize and deserialize) and the YAML parser are fields of `Env`, so every theorem stated
  over an arbitrary `Env` holds whatever these collaborators do.
* JSON text (`[]byte`) is represented by the JSON value it denotes (`Json`); the structural-patch
  library is modelled on these values.
-/

set_option autoImplicit false

/-! ## JSON values -/

/-- JSON values; a JSON text is represented by the value it denotes. Numbers are kept as
integers, object fields as an association list read through its first entry for a key. -/
inductive Json where
  | null
  | bool (b : Bool)
  | num (n : Int)
  | str (s : String)
  | arr (elems : List Json)
  | obj (fields : List (String × Json))

namespace Json

mutual
/-- Decidable equality of JSON values. -/
def decEq : (a b : Json) → Decidable (a = b)
  | null, null => isTrue rfl
  | bool a, bool b =>
    if h : a = b then isTrue (by rw [h]) else isFalse (by intro e; cases e; exact h rfl)
  | num a, num b =>
    if h : a = b then isTrue (by rw [h]) else isFalse (by intro e; cases e; exact h rfl)
  | str a, str b =>
    if h : a = b then isTrue (by rw [h]) else isFalse (by intro e; cases e; exact h rfl)
  | arr a, arr b =>
    match decEqList a b with
    | isTrue h => isTrue (by rw [h])
    | isFalse h => isFalse (by intro e; cases e; exact h rfl)
  | obj a, obj b =>
    match decEqFields a b with
    | isTrue h => isTrue (by rw [h])
    | isFalse h => isFalse (by intro e; cases e; exact h rfl)
  | obj _, arr _ | str _, arr _ | num _, arr _ | bool _, arr _ | null, arr _ =>
    isFalse (by intro e; cases e)
  | arr _, obj _ | str _, obj _ | num _, obj _ | bool _, obj _ | null, obj _ =>
    isFalse (by intro e; cases e)
  | obj _, str _ | arr _, str _ | num _, str _ | bool _, str _ | null, str _ =>
    isFalse (by intro e; cases e)
  | obj _, num _ | arr _, num _ | str _, num _ | bool _, num _ | null, num _ =>
    isFalse (by intro e; cases e)
  | obj _, bool _ | arr _, bool _ | str _, bool _ | num _, bool _ | null, bool _ =>
    isFalse (by intro e; cases e)
  | obj _, null | arr _, null | str _, null | num _, null | bool _, null =>
    isFalse (by intro e; cases e)
/-- Decidable equality of lists of JSON values. -/
def decEqList : (a b : List Json) → Decidable (a = b)
  | [], [] => isTrue rfl
  | [], _ :: _ => isFalse (by intro e; cases e)
  | _ :: _, [] => isFalse (by intro e; cases e)
  | x :: xs, y :: ys =>
    match decEq x y, decEqList xs ys with
    | isTrue h₁, isTrue h₂ => isTrue (by rw [h₁, h₂])
    | isFalse h, _ => isFalse (by intro e; cases e; exact h rfl)
    | _, isFalse h => isFalse (by intro e; cases e; exact h rfl)
/-- Decidable equality of field lists. -/
def decEqFields : (a b : List (String × Json)) → Decidable (a = b)
  | [], [] => isTrue rfl
  | [], _ :: _ => isFalse (by intro e; cases e)
  | _ :: _, [] => isFalse (by intro e; cases e)
  | (k₁, x) :: xs, (k₂, y) :: ys =>
    if hk : k₁ = k₂ then
      match decEq x y, decEqFields xs ys with
      | isTrue h₁, isTrue h₂ => isTrue (by rw [hk, h₁, h₂])
      | isFalse h, _ => isFalse (by intro e; cases e; exact h rfl)
      | _, isFalse h => isFalse (by intro e; cases e; exact h rfl)
    else isFalse (by intro e; cases e; exact hk rfl)
end

instance : DecidableEq Json := decEq

/-- True on arrays and objects, the two values a patch path can descend into. -/
def isContainer : Json → Bool
  | arr _ => true
  | obj _ => true
  | _ => false

end Json

/-- Value of the first field named `key`, if any (Go map lookup). -/
def fieldsGet (key : String) : List (String × Json) → Option Json
  | [] => none
  | (k, v) :: rest => if k = key then some v else fieldsGet key rest

/-- Assign `v` to the field named `key` where it is present (Go map assignment to an existing
key). -/
def fieldsSet (key : String) (v : Json) : List (String × Json) → List (String × Json)
  | [] => []
  | (k, x) :: rest =>
    if k = key then (k, v) :: fieldsSet key v rest else (k, x) :: fieldsSet key v rest

/-- Delete the field named `key` (Go `delete(map, key)`). -/
def fieldsDelete (key : String) : List (String × Json) → List (String × Json)
  | [] => []
  | (k, x) :: rest =>
    if k = key then fieldsDelete key rest else (k, x) :: fieldsDelete key rest

/-! ## Strings -/

/-- Errors are represented by their message. -/
abbrev Error := String

deriving instance DecidableEq for Except

/-- Go `strings.Split` for a one-character separator, on the characters of the string: the
segments between separators; never empty. -/
def splitChar (sep : Char) : List Char → List (List Char)
  | [] => [[]]
  | c :: cs =>
    if c = sep then [] :: splitChar sep cs
    else
      match splitChar sep cs with
      | [] => [[c]]
      | seg :: segs => (c :: seg) :: segs

/-- Go `strings.Split(s, sep)` for a one-character separator. -/
def strings.Split (s : String) (sep : Char) : List String :=
  (splitChar sep s.toList).map String.mk

/-- The RFC 6901 unescaping done by `decodePatchKey`: `~1` is `/` and `~0` is `~`, scanning
left to right. -/
def rfc6901Decode : List Char → List Char
  | [] => []
  | [c] => [c]
  | c :: d :: rest =>
    if c = '~' ∧ d = '1' then '/' :: rfc6901Decode rest
    else if c = '~' ∧ d = '0' then '~' :: rfc6901Decode rest
    else c :: rfc6901Decode (d :: rest)

/-- Go `strconv.Atoi` digits: the value of a non-empty run of decimal digits. -/
def digitsValue : List Char → Nat → Option Nat
  | [], acc => some acc
  | c :: cs, acc => if c.isDigit then digitsValue cs (acc * 10 + (c.toNat - 48)) else none

/-- Go `strconv.Atoi`: an optional sign followed by decimal digits, within the 64-bit range. -/
def strconv.Atoi (s : String) : Option Int :=
  match s.toList with
  | [] => none
  | c :: cs =>
    if c = '-' then
      if cs = [] then none
      else match digitsValue cs 0 with
        | some n => if n ≤ 2 ^ 63 then some (-(n : Int)) else none
        | none => none
    else if c = '+' then
      if cs = [] then none
      else match digitsValue cs 0 with
        | some n => if n < 2 ^ 63 then some (n : Int) else none
        | none => none
    else match digitsValue (c :: cs) 0 with
      | some n => if n < 2 ^ 63 then some (n : Int) else none
      | none => none

/-! ## The structural-patch library -/

/-- Modelled from the spec: `jsonpatch.Operation`, one operation of the host structural-patch
representation (section 4.1 step 4), as the patch decoder keeps it: the raw fields of the JSON
object. -/
abbrev Operation := List (String × Json)

/-- Modelled from the spec: `jsonpatch.Patch`, a structural patch: a sequence of operations. -/
abbrev Patch := List Operation

/-- Modelled from the spec: `Operation.Kind`, the kind of an operation: its `op` field. -/
def Operation.Kind (o : Operation) : String :=
  match fieldsGet "op" o with
  | some (.str s) => s
  | _ => "unknown"

/-- Modelled from the spec: `Operation.Path`, the path of an operation: its `path` field. -/
def Operation.Path (o : Operation) : Except Error String :=
  match fieldsGet "path" o with
  | some (.str s) => .ok s
  | _ => .error "missing value"

/-- Modelled from the spec: the patch library's decoding of one path segment (JSON-Pointer
escapes, section 6). -/
def decodePatchKey (k : String) : String :=
  String.mk (rfc6901Decode k.toList)

/-- Modelled from the spec: the position a key denotes in the patch library's array container
of length `len`: a decimal integer below `len`; a negative integer counts from the end. -/
def arrayIndex (key : String) (len : Nat) : Option Nat :=
  match strconv.Atoi key with
  | none => none
  | some idx =>
    if idx ≥ (len : Int) then none
    else if idx < -(len : Int) then none
    else if idx < 0 then some (idx + (len : Int)).toNat
    else some idx.toNat

/-- Modelled from the spec: `get` of the patch library's containers: the member of an object
or array at `key`. -/
def Json.get (con : Json) (key : String) : Option Json :=
  match con with
  | .obj fields => fieldsGet key fields
  | .arr elems =>
    match arrayIndex key elems.length with
    | some i => elems[i]?
    | none => none
  | _ => none

/-- Modelled from the spec: `set` of the patch library's containers: the container with the
member at `key` replaced by `v`. -/
def Json.set (con : Json) (key : String) (v : Json) : Json :=
  match con with
  | .obj fields => .obj (fieldsSet key v fields)
  | .arr elems =>
    match arrayIndex key elems.length with
    | some i => .arr (elems.set i v)
    | none => .arr elems
  | j => j

/-- Modelled from the spec: `remove` of the patch library's containers: removal of the member
at `key`; an error when the container has no such member ("a declared path not present in this
specific instance", section 7). An array closes the gap, so later elements move down. -/
def Json.remove (con : Json) (key : String) : Except Error Json :=
  match con with
  | .obj fields =>
    match fieldsGet key fields with
    | some _ => .ok (.obj (fieldsDelete key fields))
    | none => .error ("Unable to remove nonexistent key: " ++ key)
  | .arr elems =>
    match arrayIndex key elems.length with
    | some i => .ok (.arr (elems.eraseIdx i))
    | none => .error ("Unable to access invalid index: " ++ key)
  | _ => .error ("Unable to remove nonexistent key: " ++ key)

/-- Modelled from the spec: the patch library's search of the container a path leads to,
followed by the removal there, as a function of the decoded segments: descent along the inner
segments, removal of the last segment from the container reached, and the rebuilt document. A
segment that is missing, `null`, or not a container is an error. -/
def removeAt : List String → Json → Except Error Json
  | [], _ => .error "doc is missing path"
  | [key], con => con.remove key
  | part :: key :: rest, con =>
    match con.get part with
    | none => .error "doc is missing path"
    | some next =>
      if next.isContainer then
        match removeAt (key :: rest) next with
        | .error err => .error err
        | .ok next' => .ok (con.set part next')
      else .error "doc is missing path"

/-- Modelled from the spec: the patch library's removal operation (section 4.2 step 4,
glossary: "a single structural-patch instruction deleting the value at a given path"). The path is
split at `/`; the text before the first `/` is not looked at, the last segment is the key to
remove and the segments between are descended into. A path without `/` is an error. -/
def Patch.remove (doc : Json) (op : Operation) : Except Error Json :=
  match op.Path with
  | .error _ => .error "remove operation failed to decode path"
  | .ok path =>
    match strings.Split path '/' with
    | [] => .error "doc is missing path"
    | [_] => .error "doc is missing path"
    | _ :: seg :: segs => removeAt ((seg :: segs).map decodePatchKey) doc

/-- Modelled from the spec: the loop of `patch.Apply` over the operations, applied in turn; the
first failure is the failure of the patch. The spec has field removal only ("no patch operations beyond field
removal"), so an operation of any other kind is rejected here. -/
def Patch.applyOps : List Operation → Json → Except Error Json
  | [], pd => .ok pd
  | op :: ops, pd =>
    if op.Kind = "remove" then
      match Patch.remove pd op with
      | .error err => .error err
      | .ok pd' => Patch.applyOps ops pd'
    else .error ("Unexpected kind: " ++ op.Kind)

/-- Modelled from the spec: `patch.Apply(docData)`, the application of a patch to a document
(section 4.2 step 4). The document has to be an object, an array or `null`. -/
def Patch.Apply (p : Patch) (doc : Json) : Except Error Json :=
  match doc with
  | .bool _ => .error "cannot unmarshal document"
  | .num _ => .error "cannot unmarshal document"
  | .str _ => .error "cannot unmarshal document"
  | _ => Patch.applyOps p doc

/-- Modelled from the spec: `json.Marshal` on a list of string maps (section 4.1 step 4,
"encode"): the JSON array of objects with string members. It cannot fail. -/
def json.Marshal (ops : List (List (String × String))) : Except Error Json :=
  .ok (.arr (ops.map fun m => .obj (m.map fun kv => (kv.1, .str kv.2))))

/-- Modelled from the spec: the decoding of the elements of a JSON array into operations, the
loop of `jsonpatch.DecodePatch`. -/
def decodeOperations : List Json → Except Error (List Operation)
  | [] => .ok []
  | .obj fields :: rest =>
    match decodeOperations rest with
    | .error err => .error err
    | .ok ops => .ok (fields :: ops)
  | .null :: rest =>
    match decodeOperations rest with
    | .error err => .error err
    | .ok ops => .ok ([] :: ops)
  | _ :: _ => .error "cannot unmarshal into operation"

/-- Modelled from the spec: `jsonpatch.DecodePatch` (section 4.1 step 4, "decode"): a JSON
array of objects is a patch. -/
def jsonpatch.DecodePatch : Json → Except Error Patch
  | .arr elems => decodeOperations elems
  | .null => .ok []
  | _ => .error "cannot unmarshal into patch"

/-! ## Data model -/

/-- Type `schema.GroupKind`. -/
structure GroupKind where
  Group : String
  Kind : String
deriving DecidableEq

/-- Type `schema.GroupVersionKind`. -/
structure GroupVersionKind where
  Group : String
  Version : String
  Kind : String
deriving DecidableEq

/-- Method `GroupVersionKind.GroupKind()`. -/
def GroupVersionKind.GroupKind (gvk : GroupVersionKind) : GroupKind :=
  { Group := gvk.Group, Kind := gvk.Kind }

/-- Type `v1alpha1.ResourceIgnoreDifferences`, an ignore declaration. -/
structure ResourceIgnoreDifferences where
  Group : String
  Kind : String
  Name : String
  Namespace : String
  JSONPointers : List String
deriving DecidableEq

/-- Type `v1alpha1.ResourceOverride`; the one field the normalizer reads. -/
structure ResourceOverride where
  IgnoreDifferences : String
deriving DecidableEq

/-- Type `overrideIgnoreDiff`, the parsed override blob. -/
structure overrideIgnoreDiff where
  JSONPointers : List String
deriving DecidableEq

/-- Type `normalizerPatch`, a compiled rule. -/
structure normalizerPatch where
  groupKind : GroupKind
  namespace_ : String
  name : String
  patch : Patch
deriving DecidableEq

/-- Type `ignoreNormalizer`, the compiled rule set. -/
structure ignoreNormalizer where
  patches : List normalizerPatch
deriving DecidableEq

/-- The collaborators of the normalizer that lie outside the repository: the accessors and the
whole-document serialization of the resource type `R` (`unstructured.Unstructured`), and
`yaml.Unmarshal` into an `overrideIgnoreDiff`. `Unmarshal doc un` is `json.Unmarshal(doc, un)`:
the resource after the call and the error, if any. -/
structure Env (R : Type) where
  GroupVersionKind : R → GroupVersionKind
  GetName : R → String
  GetNamespace : R → String
  Marshal : R → Except Error Json
  Unmarshal : Json → R → R × Option Error
  yamlUnmarshal : String → Except Error overrideIgnoreDiff

/-- Modelled from the spec: `getGroupKindForOverrideKey`, defined elsewhere in the package. The
key is `<group>/<kind>` or `<kind>` alone (section 6); any other key is malformed and yields an
error with empty group and kind (section 4.1 step 1, section 7). -/
def getGroupKindForOverrideKey (key : String) : String × String × Option Error :=
  match strings.Split key '/' with
  | [kind] => ("", kind, none)
  | [group, kind] => (group, kind, none)
  | _ => ("", "", some ("override key must be <group>/<kind> or <kind>, got: " ++ key))

/-! ## `NewIgnoreNormalizer` -/

/-- The first loop of `NewIgnoreNormalizer` (lines 33-51): `overrides` is the map in the order
this invocation iterates it; every override with a non-empty blob appends one declaration. -/
def NewIgnoreNormalizer.appendOverrides {R : Type} (env : Env R) :
    List (String × ResourceOverride) → List ResourceIgnoreDifferences →
      Except Error (List ResourceIgnoreDifferences)
  | [], ignore => .ok ignore
  | (key, override) :: rest, ignore =>
    let gk := getGroupKindForOverrideKey key
    if override.IgnoreDifferences ≠ "" then
      match env.yamlUnmarshal override.IgnoreDifferences with
      | .error err => .error err
      | .ok ignoreSettings =>
        NewIgnoreNormalizer.appendOverrides env rest
          (ignore ++ [{ Group := gk.1, Kind := gk.2.1, Name := "", Namespace := "",
                        JSONPointers := ignoreSettings.JSONPointers }])
    else NewIgnoreNormalizer.appendOverrides env rest ignore

/-- The inner loop of `NewIgnoreNormalizer` (lines 54-69) for the declaration `d`, over its
remaining paths. -/
def NewIgnoreNormalizer.compilePaths (d : ResourceIgnoreDifferences) :
    List String → List normalizerPatch → Except Error (List normalizerPatch)
  | [], patches => .ok patches
  | path :: rest, patches =>
    match json.Marshal [[("op", "remove"), ("path", path)]] with
    | .error err => .error err
    | .ok patchData =>
      match jsonpatch.DecodePatch patchData with
      | .error err => .error err
      | .ok patch =>
        NewIgnoreNormalizer.compilePaths d rest
          (patches ++ [{ groupKind := { Group := d.Group, Kind := d.Kind }, name := d.Name,
                         namespace_ := d.Namespace, patch := patch }])

/-- The outer loop of `NewIgnoreNormalizer` (lines 53-71) over the declarations. -/
def NewIgnoreNormalizer.compileIgnore :
    List ResourceIgnoreDifferences → List normalizerPatch → Except Error (List normalizerPatch)
  | [], patches => .ok patches
  | d :: rest, patches =>
    match NewIgnoreNormalizer.compilePaths d d.JSONPointers patches with
    | .error err => .error err
    | .ok patches' => NewIgnoreNormalizer.compileIgnore rest patches'

/-- Function `NewIgnoreNormalizer(ignore, overrides)`; `.error` is the Go result `(nil, err)`. -/
def NewIgnoreNormalizer {R : Type} (env : Env R) (ignore : List ResourceIgnoreDifferences)
    (overrides : List (String × ResourceOverride)) : Except Error ignoreNormalizer :=
  match NewIgnoreNormalizer.appendOverrides env overrides ignore with
  | .error err => .error err
  | .ok ignore' =>
    match NewIgnoreNormalizer.compileIgnore ignore' [] with
    | .error err => .error err
    | .ok patches => .ok { patches := patches }

/-! ## `Normalize` -/

/-- The condition of line 80-82: the rule `patch` matches the resource `un`. -/
def ignoreNormalizer.isMatch {R : Type} (env : Env R) (un : R) (patch : normalizerPatch) : Prop :=
  (env.GroupVersionKind un).GroupKind = patch.groupKind ∧
    (patch.name = "" ∨ patch.name = env.GetName un) ∧
    (patch.namespace_ = "" ∨ patch.namespace_ = env.GetNamespace un)

instance {R : Type} (env : Env R) (un : R) (patch : normalizerPatch) :
    Decidable (ignoreNormalizer.isMatch env un patch) := by
  unfold ignoreNormalizer.isMatch; infer_instance

/-- The first loop of `Normalize` (lines 77-86): the rules selected for `un`. -/
def ignoreNormalizer.matchLoop {R : Type} (env : Env R) (un : R) :
    List normalizerPatch → List normalizerPatch → List normalizerPatch
  | [], matched => matched
  | patch :: rest, matched =>
    if ignoreNormalizer.isMatch env un patch then
      ignoreNormalizer.matchLoop env un rest (matched ++ [patch])
    else ignoreNormalizer.matchLoop env un rest matched

/-- The rules `Normalize` selects for `un` (the value of `matched` at line 87). -/
def ignoreNormalizer.matched {R : Type} (env : Env R) (n : ignoreNormalizer) (un : R) :
    List normalizerPatch :=
  ignoreNormalizer.matchLoop env un n.patches []

/-- The second loop of `Normalize` (lines 96-103): a removal that fails is skipped. -/
def ignoreNormalizer.applyLoop : List normalizerPatch → Json → Json
  | [], docData => docData
  | patch :: rest, docData =>
    match patch.patch.Apply docData with
    | .error _ => ignoreNormalizer.applyLoop rest docData
    | .ok patchedData => ignoreNormalizer.applyLoop rest patchedData

/-- Method `ignoreNormalizer.Normalize(un)`: the resource after the call and the error
returned, if any. -/
def ignoreNormalizer.Normalize {R : Type} (env : Env R) (n : ignoreNormalizer) (un : R) :
    R × Option Error :=
  let matched := ignoreNormalizer.matched env n un
  if matched.length = 0 then (un, none)
  else
    match env.Marshal un with
    | .error err => (un, some err)
    | .ok docData => env.Unmarshal (ignoreNormalizer.applyLoop matched docData) un

/-! ## A concrete resource boundary -/

/-- Modelled from the spec: `unstructured.Unstructured`, the external resource type (section 3,
ResourceInstance): a structured document held as the fields of its top-level object. -/
structure Unstructured where
  Object : List (String × Json)
deriving DecidableEq

/-- Modelled from the spec: the accessor helper of `Unstructured`: the string at a path of
nested objects, empty when any step is missing or is not of the expected type. -/
def nestedString (fields : List (String × Json)) : List String → String
  | [] => ""
  | [f] =>
    match fieldsGet f fields with
    | some (.str s) => s
    | _ => ""
  | f :: g :: fs =>
    match fieldsGet f fields with
    | some (.obj inner) => nestedString inner (g :: fs)
    | _ => ""

/-- Modelled from the spec: `schema.ParseGroupVersion`, the group and version of an
`apiVersion` string: `<group>/<version>` or `<version>` alone; no result when it holds more than
one `/`. -/
def ParseGroupVersion (gv : String) : Option (String × String) :=
  match strings.Split gv '/' with
  | [version] => some ("", version)
  | [group, version] => some (group, version)
  | _ => none

/-- Modelled from the spec: the group/version/kind accessor (section 6), read from the
`apiVersion` and `kind` fields; empty when `apiVersion` does not parse. -/
def Unstructured.GroupVersionKind (un : Unstructured) : GroupVersionKind :=
  match ParseGroupVersion (nestedString un.Object ["apiVersion"]) with
  | some gv => { Group := gv.1, Version := gv.2, Kind := nestedString un.Object ["kind"] }
  | none => { Group := "", Version := "", Kind := "" }

/-- Modelled from the spec: the name accessor, `metadata.name`. -/
def Unstructured.GetName (un : Unstructured) : String :=
  nestedString un.Object ["metadata", "name"]

/-- Modelled from the spec: the namespace accessor, `metadata.namespace`. -/
def Unstructured.GetNamespace (un : Unstructured) : String :=
  nestedString un.Object ["metadata", "namespace"]

/-- Modelled from the spec: whole-document serialization (section 4.2 step 3). A document made
of JSON values always serializes. -/
def Unstructured.MarshalJSON (un : Unstructured) : Except Error Json :=
  .ok (.obj un.Object)

/-- Modelled from the spec: whole-document deserialization in place (section 4.2 step 5,
"deserialization failure surfaces as an error", the resource being left overwritten). As the
Kubernetes decoder of unstructured objects does, the decoded object replaces the content of the
resource and a document without a kind is then reported as an error. A document that is not an
object is an error. -/
def Unstructured.UnmarshalJSON (doc : Json) (un : Unstructured) : Unstructured × Option Error :=
  match doc with
  | .obj fields =>
    let un' : Unstructured := { Object := fields }
    if un'.GroupVersionKind.Kind = "" then (un', some "Object 'Kind' is missing")
    else (un', none)
  | .null => ({ Object := [] }, some "Object 'Kind' is missing")
  | _ => (un, some "cannot unmarshal into object")

/-- Modelled from the spec: the items of the field-path list of an override blob, one
`- <path>` line each. -/
def yamlPointerItems : List (List Char) → Except Error (List String)
  | [] => .ok []
  | line :: rest =>
    match line with
    | c :: d :: item =>
      if c = '-' ∧ d = ' ' then
        match yamlPointerItems rest with
        | .error err => .error err
        | .ok items => .ok (String.mk item :: items)
      else .error "yaml: did not find expected entry"
    | _ => .error "yaml: did not find expected entry"

/-- Modelled from the spec: the parser of an override blob (section 6), for blobs in block
form: a line `jsonPointers:` followed by one `- <path>` line per path, blank lines aside. The
empty document holds no path; any other text is reported as a parse error. -/
def yamlUnmarshalPointers (blob : String) : Except Error overrideIgnoreDiff :=
  match (splitChar '\n' blob.toList).filter (fun line => line ≠ []) with
  | [] => .ok { JSONPointers := [] }
  | header :: items =>
    if header = "jsonPointers:".toList then
      match yamlPointerItems items with
      | .error err => .error err
      | .ok paths => .ok { JSONPointers := paths }
    else .error "yaml: unmarshal errors"

/-- The resource boundary given by `Unstructured`. -/
def unstructuredEnv : Env Unstructured where
  GroupVersionKind := Unstructured.GroupVersionKind
  GetName := Unstructured.GetName
  GetNamespace := Unstructured.GetNamespace
  Marshal := Unstructured.MarshalJSON
  Unmarshal := Unstructured.UnmarshalJSON
  yamlUnmarshal := yamlUnmarshalPointers

/-! ## Specification-level definitions -/

/-- The patch the compiler builds for a path: the single operation
`\x7bop: "remove", path: <path>\x7d`. -/
def removePatch (path : String) : Patch :=
  [[("op", .str "remove"), ("path", .str path)]]

/-- The rule the spec asks for a (declaration, path) pair: the declaration's group, kind,
namespace and name with the removal of `path`. -/
def compiledRule (d : ResourceIgnoreDifferences) (path : String) : normalizerPatch :=
  { groupKind := { Group := d.Group, Kind := d.Kind }, namespace_ := d.Namespace, name := d.Name,
    patch := removePatch path }

/-- The declarations the spec derives from the overrides (section 4.1 steps 1-3): one per
override with a non-empty blob, in iteration order, with the group and kind of the key, wildcard
namespace and name, and the paths of the blob. -/
def overrideDeclarations {R : Type} (env : Env R) (overrides : List (String × ResourceOverride)) :
    List ResourceIgnoreDifferences :=
  overrides.filterMap fun kv =>
    if kv.2.IgnoreDifferences = "" then none
    else
      match env.yamlUnmarshal kv.2.IgnoreDifferences with
      | .error _ => none
      | .ok ignoreSettings =>
        some { Group := (getGroupKindForOverrideKey kv.1).1,
               Kind := (getGroupKindForOverrideKey kv.1).2.1, Name := "", Namespace := "",
               JSONPointers := ignoreSettings.JSONPointers }

/-- The decoded segments of a JSON pointer: the segments after the first `/`. -/
def jsonPointerKeys (path : String) : List String :=
  (strings.Split path '/').tail.map decodePatchKey

/-- The member named `key` of an object; nothing on any other value. -/
def Json.field (doc : Json) (key : String) : Option Json :=
  match doc with
  | .obj fields => fieldsGet key fields
  | _ => none

/-- The value at a path made of object keys. -/
def Json.atKeys (doc : Json) : List String → Option Json
  | [] => some doc
  | key :: rest =>
    match doc.field key with
    | some child => child.atKeys rest
    | none => none

/-- The value at a path through objects (by key) and arrays (by index). -/
def Json.atPath (doc : Json) : List String → Option Json
  | [] => some doc
  | key :: rest =>
    match doc.get key with
    | some child => child.atPath rest
    | none => none

/-- True when the last segment of a decoded path is not an integer, so that the path cannot
name an array element. -/
def lastIsKey : List String → Bool
  | [] => true
  | [key] => (strconv.Atoi key).isNone
  | _ :: key :: rest => lastIsKey (key :: rest)

/-- True when the JSON pointer does not end in an array index. -/
def endsInKey (path : String) : Bool :=
  lastIsKey (jsonPointerKeys path)

/-- The step of the spec's sequential application (section 4.2 step 4): apply the removal of
the rule; when it fails keep the document. -/
def applyOrSkip (doc : Json) (rule : normalizerPatch) : Json :=
  match rule.patch.Apply doc with
  | .ok doc' => doc'
  | .error _ => doc

/-- The rules of `rules` that are not in `seen` and not earlier in `rules`: each rule is kept at
its first occurrence. -/
def withoutLaterDuplicatesFrom :
    List normalizerPatch → List normalizerPatch → List normalizerPatch
  | [], _ => []
  | r :: rest, seen =>
    if r ∈ seen then withoutLaterDuplicatesFrom rest seen
    else r :: withoutLaterDuplicatesFrom rest (r :: seen)

/-- The rule sequence with the later duplicates removed. -/
def withoutLaterDuplicates (rules : List normalizerPatch) : List normalizerPatch :=
  withoutLaterDuplicatesFrom rules []

/-! ## Sample resources and rule sets -/

/-- A Deployment of group `apps` with three replicas. -/
def sampleDeployment : Unstructured :=
  { Object := [("apiVersion", .str "apps/v1"), ("kind", .str "Deployment"),
      ("metadata", .obj [("name", .str "web"), ("namespace", .str "prod")]),
      ("spec", .obj [("replicas", .num 3),
        ("template", .obj [("spec", .obj [("containers", .arr [.obj [("name", .str "app")]])])])])] }

/-- The sample Deployment without `spec.replicas`. -/
def sampleDeploymentNoReplicas : Unstructured :=
  { Object := [("apiVersion", .str "apps/v1"), ("kind", .str "Deployment"),
      ("metadata", .obj [("name", .str "web"), ("namespace", .str "prod")]),
      ("spec", .obj [
        ("template", .obj [("spec", .obj [("containers", .arr [.obj [("name", .str "app")]])])])])] }

/-- A ConfigMap of the core group. -/
def sampleConfigMap : Unstructured :=
  { Object := [("apiVersion", .str "v1"), ("kind", .str "ConfigMap"),
      ("metadata", .obj [("name", .str "settings"), ("namespace", .str "prod")]),
      ("data", .obj [("secret", .str "s3cr3t"), ("colour", .str "blue")])] }

/-- A list resource with an array of three items. -/
def sampleList : Unstructured :=
  { Object := [("apiVersion", .str "v1"), ("kind", .str "List"),
      ("items", .arr [.str "a", .str "b", .str "c"])] }

/-- The declaration `\x7bgroup: apps, kind: Deployment, jsonPointers: [/spec/replicas]\x7d`. -/
def ignoreReplicas : ResourceIgnoreDifferences :=
  { Group := "apps", Kind := "Deployment", Name := "", Namespace := "",
    JSONPointers := ["/spec/replicas"] }

/-- A resource boundary whose serialization always fails, all else as `unstructuredEnv`. -/
def failingMarshalEnv : Env Unstructured :=
  { unstructuredEnv with Marshal := fun _ => .error "json: unsupported value" }

/-- The override blob listing the one path `/data/secret`. -/
def secretBlob : String := "jsonPointers:\n- /data/secret\n"

/-- An override blob that does not parse: an unclosed flow sequence. -/
def brokenBlob : String := "jsonPointers: ["

/-- The declaration `\x7bkind: ConfigMap, jsonPointers: [/data/secret]\x7d`. -/
def ignoreSecret : ResourceIgnoreDifferences :=
  { Group := "", Kind := "ConfigMap", Name := "", Namespace := "",
    JSONPointers := ["/data/secret"] }

/-- A declaration with two paths, naming one Deployment. -/
def ignoreTwoPaths : ResourceIgnoreDifferences :=
  { Group := "apps", Kind := "Deployment", Name := "web", Namespace := "prod",
    JSONPointers := ["/spec/replicas", "/metadata/labels"] }

/-- A declaration without paths. -/
def ignoreNoPaths : ResourceIgnoreDifferences :=
  { Group := "batch", Kind := "Job", Name := "", Namespace := "", JSONPointers := [] }

/-- The declaration `\x7bkind: List, jsonPointers: [/items/0, /items/0]\x7d`. -/
def ignoreFirstItemTwice : ResourceIgnoreDifferences :=
  { Group := "", Kind := "List", Name := "", Namespace := "",
    JSONPointers := ["/items/0", "/items/0"] }

/-- The declaration `\x7bgroup: "", kind: Deployment, jsonPointers: [/spec/replicas]\x7d`. -/
def ignoreReplicasEmptyGroup : ResourceIgnoreDifferences :=
  { Group := "", Kind := "Deployment", Name := "", Namespace := "",
    JSONPointers := ["/spec/replicas"] }

/-- A Pod with two containers. -/
def samplePod : Unstructured :=
  { Object := [("apiVersion", .str "v1"), ("kind", .str "Pod"),
      ("spec", .obj [("containers", .arr [.obj [("name", .str "app")],
        .obj [("name", .str "sidecar")]])])] }

/-- The declaration `\x7bkind: Pod, jsonPointers: [/spec/containers/0]\x7d`. -/
def ignoreFirstContainer : ResourceIgnoreDifferences :=
  { Group := "", Kind := "Pod", Name := "", Namespace := "",
    JSONPointers := ["/spec/containers/0"] }

/-- The declaration `\x7bgroup: apps, kind: Deployment, jsonPointers: [/apiVersion]\x7d`. -/
def ignoreApiVersion : ResourceIgnoreDifferences :=
  { Group := "apps", Kind := "Deployment", Name := "", Namespace := "",
    JSONPointers := ["/apiVersion"] }

/-- The declaration `\x7bgroup: "", kind: Deployment, jsonPointers: [/spec]\x7d`. -/
def ignoreSpecEmptyGroup : ResourceIgnoreDifferences :=
  { Group := "", Kind := "Deployment", Name := "", Namespace := "", JSONPointers := ["/spec"] }

/-- A list resource whose items are two objects. -/
def sampleObjectList : Unstructured :=
  { Object := [("apiVersion", .str "v1"), ("kind", .str "List"),
      ("items", .arr [.obj [("bar", .num 1)], .obj [("foo", .num 2)]])] }

/-- A rule for kind List of the core group removing `path`. -/
def listRule (path : String) : normalizerPatch :=
  { groupKind := { Group := "", Kind := "List" }, namespace_ := "", name := "",
    patch := removePatch path }

/-- A rule for Deployments of group `apps` removing `path`. -/
def deploymentRule (path : String) : normalizerPatch :=
  { groupKind := { Group := "apps", Kind := "Deployment" }, namespace_ := "", name := "",
    patch := removePatch path }

/-- The declaration `\x7bgroup: apps, kind: Deployment, jsonPointers: [/kind]\x7d`. -/
def ignoreKind : ResourceIgnoreDifferences :=
  { Group := "apps", Kind := "Deployment", Name := "", Namespace := "",
    JSONPointers := ["/kind"] }

/-- The sample Deployment at API version `apps/v1beta1`. -/
def sampleDeploymentBeta : Unstructured :=
  { Object := [("apiVersion", .str "apps/v1beta1"), ("kind", .str "Deployment"),
      ("metadata", .obj [("name", .str "web"), ("namespace", .str "prod")]),
      ("spec", .obj [("replicas", .num 3),
        ("template", .obj [("spec", .obj [("containers", .arr [.obj [("name", .str "app")]])])])])] }

/-- A rule for the Deployment of group `apps` named `name` in `ns`, removing `path`. -/
def namedDeploymentRule (ns name path : String) : normalizerPatch :=
  { groupKind := { Group := "apps", Kind := "Deployment" }, namespace_ := ns, name := name,
    patch := removePatch path }

/-- A declaration whose paths are not JSON pointers: the empty string, a string without `/`
and a string with a wrong escape. -/
def ignoreInvalidPaths : ResourceIgnoreDifferences :=
  { Group := "apps", Kind := "Deployment", Name := "", Namespace := "",
    JSONPointers := ["", "spec.replicas", "/spec/~2"] }

/-- The declaration with empty group and kind that a record with a malformed key and the blob
`secretBlob` yields. -/
def ignoreSecretNoGroupKind : ResourceIgnoreDifferences :=
  { Group := "", Kind := "", Name := "", Namespace := "", JSONPointers := ["/data/secret"] }

/-- An override map, in one iteration order: a record with the malformed key `apps/v1/Deployment`
and a record for ConfigMap, both with the blob `secretBlob`. -/
def overridesWithMalformedKey : List (String × ResourceOverride) :=
  [("apps/v1/Deployment", { IgnoreDifferences := secretBlob }),
   ("ConfigMap", { IgnoreDifferences := secretBlob })]

/-- The override blob listing the one path `/spec/replicas`. -/
def replicasBlob : String := "jsonPointers:\n- /spec/replicas\n"

/-- The group and kind an override key is read as. -/
def overrideGroupKind (kv : String × ResourceOverride) : String × String :=
  ((getGroupKindForOverrideKey kv.1).1, (getGroupKindForOverrideKey kv.1).2.1)

/-- The declaration `\x7bgroup: apps, kind: Deployment, jsonPointers: [x/kind]\x7d`, whose path
is not a JSON pointer: it has text before its first `/`. -/
def ignoreKindNoLeadingSlash : ResourceIgnoreDifferences :=
  { Group := "apps", Kind := "Deployment", Name := "", Namespace := "",
    JSONPointers := ["x/kind"] }

/-! ## Lemmas on the loops -/

theorem matchLoop_eq_filter {R : Type} (env : Env R) (un : R) (patches : List normalizerPatch) :
    ∀ matched : List normalizerPatch,
      ignoreNormalizer.matchLoop env un patches matched =
        matched ++ patches.filter (fun p => decide (ignoreNormalizer.isMatch env un p)) := by
  induction patches with
  | nil => intro matched; simp [ignoreNormalizer.matchLoop]
  | cons p rest ih =>
    intro matched
    by_cases hp : ignoreNormalizer.isMatch env un p
    · simp [ignoreNormalizer.matchLoop, hp, ih]
    · simp [ignoreNormalizer.matchLoop, hp, ih]

theorem matched_eq_filter {R : Type} (env : Env R) (n : ignoreNormalizer) (un : R) :
    ignoreNormalizer.matched env n un =
      n.patches.filter (fun p => decide (ignoreNormalizer.isMatch env un p)) := by
  simp [ignoreNormalizer.matched, matchLoop_eq_filter]

theorem mem_matched_iff {R : Type} (env : Env R) (n : ignoreNormalizer) (un : R)
    (rule : normalizerPatch) :
    rule ∈ ignoreNormalizer.matched env n un ↔
      rule ∈ n.patches ∧ ignoreNormalizer.isMatch env un rule := by
  simp [matched_eq_filter]

theorem applyLoop_eq_foldl (rules : List normalizerPatch) :
    ∀ doc : Json, ignoreNormalizer.applyLoop rules doc = rules.foldl applyOrSkip doc := by
  induction rules with
  | nil => intro doc; rfl
  | cons r rest ih =>
    intro doc
    cases h : r.patch.Apply doc with
    | error e => simp [ignoreNormalizer.applyLoop, applyOrSkip, h, ih]
    | ok d => simp [ignoreNormalizer.applyLoop, applyOrSkip, h, ih]

theorem compilePaths_eq (d : ResourceIgnoreDifferences) (paths : List String) :
    ∀ patches : List normalizerPatch,
      NewIgnoreNormalizer.compilePaths d paths patches =
        .ok (patches ++ paths.map (compiledRule d)) := by
  induction paths with
  | nil => intro patches; simp [NewIgnoreNormalizer.compilePaths]
  | cons p rest ih =>
    intro patches
    simp [NewIgnoreNormalizer.compilePaths, json.Marshal, jsonpatch.DecodePatch,
      decodeOperations, ih, compiledRule, removePatch]

theorem compileIgnore_eq (ds : List ResourceIgnoreDifferences) :
    ∀ patches : List normalizerPatch,
      NewIgnoreNormalizer.compileIgnore ds patches =
        .ok (patches ++ ds.flatMap (fun d => d.JSONPointers.map (compiledRule d))) := by
  induction ds with
  | nil => intro patches; simp [NewIgnoreNormalizer.compileIgnore]
  | cons d rest ih =>
    intro patches
    simp [NewIgnoreNormalizer.compileIgnore, compilePaths_eq, ih]

theorem appendOverrides_ok {R : Type} (env : Env R) (overrides : List (String × ResourceOverride)) :
    ∀ ignore ignore' : List ResourceIgnoreDifferences,
      NewIgnoreNormalizer.appendOverrides env overrides ignore = .ok ignore' →
        ignore' = ignore ++ overrideDeclarations env overrides := by
  induction overrides with
  | nil =>
    intro ignore ignore' h
    simp [NewIgnoreNormalizer.appendOverrides] at h
    simp [overrideDeclarations, h]
  | cons kv rest ih =>
    intro ignore ignore' h
    obtain ⟨key, override⟩ := kv
    by_cases hb : override.IgnoreDifferences = ""
    · simp [NewIgnoreNormalizer.appendOverrides, hb] at h
      have := ih _ _ h
      simp [overrideDeclarations, hb] at this ⊢
      exact this
    · cases hy : env.yamlUnmarshal override.IgnoreDifferences with
      | error e => simp [NewIgnoreNormalizer.appendOverrides, hb, hy] at h
      | ok s =>
        simp [NewIgnoreNormalizer.appendOverrides, hb, hy] at h
        have := ih _ _ h
        simp [overrideDeclarations, hb, hy] at this ⊢
        exact this

theorem appendOverrides_error {R : Type} (env : Env R)
    (overrides : List (String × ResourceOverride)) :
    ∀ ignore : List ResourceIgnoreDifferences,
      (∃ kv ∈ overrides, kv.2.IgnoreDifferences ≠ "" ∧
        ∃ err, env.yamlUnmarshal kv.2.IgnoreDifferences = .error err) →
      ∃ err, NewIgnoreNormalizer.appendOverrides env overrides ignore = .error err := by
  induction overrides with
  | nil => intro ignore h; simp at h
  | cons kv rest ih =>
    intro ignore h
    obtain ⟨key, override⟩ := kv
    obtain ⟨kv', hmem, hne, err, herr⟩ := h
    by_cases hb : override.IgnoreDifferences = ""
    · have hrest : kv' ∈ rest := by
        rcases List.mem_cons.mp hmem with h1 | h1
        · subst h1; exact absurd hb hne
        · exact h1
      simp only [NewIgnoreNormalizer.appendOverrides, hb, ne_eq, not_true_eq_false, if_false]
      exact ih ignore ⟨kv', hrest, hne, err, herr⟩
    · cases hy : env.yamlUnmarshal override.IgnoreDifferences with
      | error e => exact ⟨e, by simp [NewIgnoreNormalizer.appendOverrides, hb, hy]⟩
      | ok s =>
        have hrest : kv' ∈ rest := by
          rcases List.mem_cons.mp hmem with h1 | h1
          · subst h1; simp [hy] at herr
          · exact h1
        simp only [NewIgnoreNormalizer.appendOverrides, hb, ne_eq, not_false_eq_true, if_true, hy]
        exact ih _ ⟨kv', hrest, hne, err, herr⟩

theorem newIgnoreNormalizer_ok {R : Type} (env : Env R) (ignore : List ResourceIgnoreDifferences)
    (overrides : List (String × ResourceOverride)) (n : ignoreNormalizer)
    (h : NewIgnoreNormalizer env ignore overrides = .ok n) :
    n.patches = (ignore ++ overrideDeclarations env overrides).flatMap
      (fun d => d.JSONPointers.map (compiledRule d)) := by
  unfold NewIgnoreNormalizer at h
  cases ha : NewIgnoreNormalizer.appendOverrides env overrides ignore with
  | error e => simp [ha] at h
  | ok ignore' =>
    have hi := appendOverrides_ok env overrides ignore ignore' ha
    simp [ha, compileIgnore_eq] at h
    rw [← h, hi]

/-! ## Lemmas on documents -/

theorem fieldsGet_fieldsSet (k k' : String) (v : Json) (fs : List (String × Json)) :
    fieldsGet k (fieldsSet k' v fs) =
      if k = k' then (fieldsGet k fs).map (fun _ => v) else fieldsGet k fs := by
  induction fs with
  | nil => simp [fieldsGet, fieldsSet]
  | cons kv rest ih =>
    obtain ⟨a, x⟩ := kv
    by_cases h1 : a = k' <;> by_cases h2 : k = k' <;> by_cases h3 : a = k <;>
      simp_all [fieldsGet, fieldsSet]

theorem fieldsGet_fieldsDelete (k k' : String) (fs : List (String × Json)) :
    fieldsGet k (fieldsDelete k' fs) = if k = k' then none else fieldsGet k fs := by
  induction fs with
  | nil => simp [fieldsGet, fieldsDelete]
  | cons kv rest ih =>
    obtain ⟨a, x⟩ := kv
    by_cases h1 : a = k' <;> by_cases h2 : k = k' <;> by_cases h3 : a = k <;>
      simp_all [fieldsGet, fieldsDelete]

theorem Json.get_set_same (con : Json) (part : String) (old v : Json)
    (h : con.get part = some old) : (con.set part v).get part = some v := by
  cases con with
  | obj fields =>
    simp only [Json.get] at h
    simp [Json.get, Json.set, fieldsGet_fieldsSet, h]
  | arr elems =>
    simp only [Json.get] at h
    cases hi : arrayIndex part elems.length with
    | none => simp [hi] at h
    | some i =>
      simp only [hi] at h
      have hlt : i < elems.length := by
        rcases List.getElem?_eq_some_iff.mp h with ⟨hlt, _⟩
        exact hlt
      simp [Json.get, Json.set, hi, hlt]
  | null => simp [Json.get] at h
  | bool b => simp [Json.get] at h
  | num m => simp [Json.get] at h
  | str t => simp [Json.get] at h

theorem Json.get_set_cases (con : Json) (part' part : String) (old v : Json)
    (h : con.get part' = some old) :
    ((con.set part' v).get part = some v ∧ con.get part = some old) ∨
      (con.set part' v).get part = con.get part := by
  cases con with
  | obj fields =>
    simp only [Json.get] at h
    by_cases hp : part = part'
    · left; subst hp; simp [Json.get, Json.set, fieldsGet_fieldsSet, h]
    · right; simp [Json.get, Json.set, fieldsGet_fieldsSet, hp]
  | arr elems =>
    simp only [Json.get] at h
    cases hi : arrayIndex part' elems.length with
    | none => simp [hi] at h
    | some i =>
      simp only [hi] at h
      have hlt : i < elems.length := by
        rcases List.getElem?_eq_some_iff.mp h with ⟨hlt, _⟩
        exact hlt
      cases hj : arrayIndex part elems.length with
      | none => right; simp [Json.get, Json.set, hi, hj]
      | some j =>
        by_cases hij : i = j
        · left; subst hij; simp [Json.get, Json.set, hi, hj, hlt, h]
        · right; simp [Json.get, Json.set, hi, hj, List.getElem?_set, hij]
  | null => simp [Json.get] at h
  | bool b => simp [Json.get] at h
  | num m => simp [Json.get] at h
  | str t => simp [Json.get] at h

theorem Json.remove_set_error (con : Json) (key part : String) (v : Json)
    (h : ∃ e, con.remove key = .error e) : ∃ e, (con.set part v).remove key = .error e := by
  obtain ⟨e, he⟩ := h
  cases con with
  | obj fields =>
    simp only [Json.remove] at he
    cases hk : fieldsGet key fields with
    | some x => simp [hk] at he
    | none =>
      by_cases hp : key = part
      · subst hp; simp [Json.remove, Json.set, fieldsGet_fieldsSet, hk]
      · simp [Json.remove, Json.set, fieldsGet_fieldsSet, hk, hp]
  | arr elems =>
    simp only [Json.remove] at he
    cases hk : arrayIndex key elems.length with
    | some i => simp [hk] at he
    | none =>
      cases hj : arrayIndex part elems.length <;> simp [Json.remove, Json.set, hk, hj]
  | null => exact ⟨_, rfl⟩
  | bool b => exact ⟨_, rfl⟩
  | num m => exact ⟨_, rfl⟩
  | str t => exact ⟨_, rfl⟩

theorem arrayIndex_of_atoi_none (key : String) (len : Nat) (h : strconv.Atoi key = none) :
    arrayIndex key len = none := by
  simp [arrayIndex, h]

theorem Json.remove_key_ok (con d' : Json) (key : String) (hk : strconv.Atoi key = none)
    (h : con.remove key = .ok d') :
    ∃ fields x, con = .obj fields ∧ fieldsGet key fields = some x ∧
      d' = .obj (fieldsDelete key fields) := by
  cases con with
  | obj fields =>
    simp only [Json.remove] at h
    cases hg : fieldsGet key fields with
    | none => simp [hg] at h
    | some x =>
      simp [hg] at h
      exact ⟨fields, x, rfl, hg, h.symm⟩
  | arr elems => simp [Json.remove, arrayIndex_of_atoi_none key _ hk] at h
  | null => simp [Json.remove] at h
  | bool b => simp [Json.remove] at h
  | num m => simp [Json.remove] at h
  | str t => simp [Json.remove] at h

theorem Json.set_isContainer (con : Json) (part : String) (old v : Json)
    (h : con.get part = some old) : (con.set part v).isContainer = true := by
  cases con with
  | obj fields => rfl
  | arr elems =>
    cases hj : arrayIndex part elems.length <;> simp [Json.set, hj, Json.isContainer]
  | null => simp [Json.get] at h
  | bool b => simp [Json.get] at h
  | num m => simp [Json.get] at h
  | str t => simp [Json.get] at h

theorem Json.remove_isContainer (con d' : Json) (key : String) (h : con.remove key = .ok d') :
    d'.isContainer = true := by
  cases con with
  | obj fields =>
    simp only [Json.remove] at h
    cases hg : fieldsGet key fields with
    | none => simp [hg] at h
    | some x => simp [hg] at h; subst h; rfl
  | arr elems =>
    simp only [Json.remove] at h
    cases hg : arrayIndex key elems.length with
    | none => simp [hg] at h
    | some x => simp [hg] at h; subst h; rfl
  | null => simp [Json.remove] at h
  | bool b => simp [Json.remove] at h
  | num m => simp [Json.remove] at h
  | str t => simp [Json.remove] at h

theorem removeAt_cons_cons_ok (part key : String) (rest : List String) (con d' : Json) :
    removeAt (part :: key :: rest) con = .ok d' ↔
      ∃ next next', con.get part = some next ∧ next.isContainer = true ∧
        removeAt (key :: rest) next = .ok next' ∧ d' = con.set part next' := by
  cases hg : con.get part with
  | none => simp [removeAt, hg]
  | some next =>
    by_cases hc : next.isContainer = true
    · cases hr : removeAt (key :: rest) next with
      | error e => simp [removeAt, hg, hc, hr]
      | ok next' =>
        simp [removeAt, hg, hc, hr]
        exact eq_comm
    · simp [removeAt, hg, hc]

theorem removeAt_cons_cons_error (part key : String) (rest : List String) (con : Json) :
    (∃ e, removeAt (part :: key :: rest) con = .error e) ↔
      con.get part = none ∨ ∃ next, con.get part = some next ∧
        (next.isContainer = false ∨ ∃ e, removeAt (key :: rest) next = .error e) := by
  cases hg : con.get part with
  | none => simp [removeAt, hg]
  | some next =>
    by_cases hc : next.isContainer = true
    · cases hr : removeAt (key :: rest) next with
      | error e => simp [removeAt, hg, hc, hr]
      | ok next' => simp [removeAt, hg, hc, hr]
    · simp [removeAt, hg, hc]

theorem removeAt_isContainer (keys : List String) :
    ∀ con d' : Json, removeAt keys con = .ok d' → d'.isContainer = true := by
  induction keys with
  | nil => intro con d' h; simp [removeAt] at h
  | cons part rest ih =>
    intro con d' h
    cases rest with
    | nil => exact Json.remove_isContainer con d' part (by simpa [removeAt] using h)
    | cons key rest' =>
      obtain ⟨next, next', hg, _, _, hd⟩ := (removeAt_cons_cons_ok part key rest' con d').mp h
      rw [hd]
      exact Json.set_isContainer con part next next' hg

/-- A removal that ends in a key cannot be repeated: the field is gone. -/
theorem removeAt_twice_fails (keys : List String) :
    ∀ con d' : Json, lastIsKey keys = true → removeAt keys con = .ok d' →
      ∃ e, removeAt keys d' = .error e := by
  induction keys with
  | nil => intro con d' _ h; simp [removeAt] at h
  | cons part rest ih =>
    intro con d' hlast h
    cases rest with
    | nil =>
      have hk : strconv.Atoi part = none := by simpa [lastIsKey] using hlast
      obtain ⟨fields, x, hcon, _, hd⟩ :=
        Json.remove_key_ok con d' part hk (by simpa [removeAt] using h)
      subst hd
      simp [removeAt, Json.remove, fieldsGet_fieldsDelete]
    | cons key rest' =>
      obtain ⟨next, next', hg, hc, hr, hd⟩ := (removeAt_cons_cons_ok part key rest' con d').mp h
      have hlast' : lastIsKey (key :: rest') = true := by simpa [lastIsKey] using hlast
      obtain ⟨e, he⟩ := ih next next' hlast' hr
      rw [removeAt_cons_cons_error]
      right
      exact ⟨next', by rw [hd]; exact Json.get_set_same con part next next' hg, Or.inr ⟨e, he⟩⟩

/-- A removal that fails keeps failing after another removal that ends in a key: removing a
field brings no path into existence. -/
theorem removeAt_stays_failed (q : List String) :
    ∀ (p : List String) (d d' : Json), lastIsKey q = true → removeAt q d = .ok d' →
      (∃ e, removeAt p d = .error e) → ∃ e, removeAt p d' = .error e := by
  induction q with
  | nil => intro p d d' _ h; simp [removeAt] at h
  | cons part' rest' ih =>
    intro p d d' hlast hq hp
    cases rest' with
    | nil =>
      have hk : strconv.Atoi part' = none := by simpa [lastIsKey] using hlast
      obtain ⟨fields, x, hcon, hx, hd⟩ :=
        Json.remove_key_ok d d' part' hk (by simpa [removeAt] using hq)
      subst hcon; subst hd
      match p, hp with
      | [], _ => exact ⟨_, rfl⟩
      | [key], hp =>
        obtain ⟨e, he⟩ := hp
        simp only [removeAt, Json.remove] at he
        cases hg : fieldsGet key fields with
        | some y => simp [hg] at he
        | none =>
          by_cases hkk : key = part' <;> simp [removeAt, Json.remove, fieldsGet_fieldsDelete, hg, hkk]
      | part :: key :: rest, hp =>
        rw [removeAt_cons_cons_error] at hp ⊢
        by_cases hpp : part = part'
        · left; simp [Json.get, fieldsGet_fieldsDelete, hpp]
        · have hget : (Json.obj (fieldsDelete part' fields)).get part = (Json.obj fields).get part := by
            simp [Json.get, fieldsGet_fieldsDelete, hpp]
          rw [hget]
          exact hp
    | cons key' rest'' =>
      obtain ⟨next, next', hg, hc, hr, hd⟩ :=
        (removeAt_cons_cons_ok part' key' rest'' d d').mp hq
      have hlast' : lastIsKey (key' :: rest'') = true := by simpa [lastIsKey] using hlast
      have hc' : next'.isContainer = true := removeAt_isContainer _ next next' hr
      subst hd
      match p, hp with
      | [], _ => exact ⟨_, rfl⟩
      | [key], hp => exact Json.remove_set_error d key part' next' (by simpa [removeAt] using hp)
      | part :: key :: rest, hp =>
        rw [removeAt_cons_cons_error] at hp ⊢
        rcases Json.get_set_cases d part' part next next' hg with ⟨hs, ho⟩ | hsame
        · right
          refine ⟨next', hs, Or.inr ?_⟩
          rcases hp with hnone | ⟨nx, hnx, hfail⟩
          · rw [ho] at hnone; cases hnone
          · rw [ho] at hnx
            cases hnx
            rcases hfail with hnc | hfail
            · rw [hc] at hnc; cases hnc
            · exact ih (key :: rest) next next' hlast' hr hfail
        · rw [hsame]; exact hp

theorem removeAt_scalar (keys : List String) (con : Json) (h : con.isContainer = false) :
    ∀ d', removeAt keys con ≠ .ok d' := by
  intro d' hd
  have hget : ∀ k, con.get k = none := by
    intro k; cases con <;> simp_all [Json.get, Json.isContainer]
  have hrem : ∀ k d', con.remove k ≠ .ok d' := by
    intro k d'; cases con <;> simp_all [Json.remove, Json.isContainer]
  match keys, hd with
  | [], hd => simp [removeAt] at hd
  | [k], hd => exact hrem k d' (by simpa [removeAt] using hd)
  | part :: key :: rest, hd => simp [removeAt, hget] at hd

theorem apply_removePatch_ok (path : String) (doc d' : Json) :
    (removePatch path).Apply doc = .ok d' ↔ removeAt (jsonPointerKeys path) doc = .ok d' := by
  have hop : Operation.Kind [("op", Json.str "remove"), ("path", Json.str path)] = "remove" := by
    simp [Operation.Kind, fieldsGet]
  have hpath : Operation.Path [("op", Json.str "remove"), ("path", Json.str path)] = .ok path := by
    simp [Operation.Path, fieldsGet]
  have hrem : Patch.remove doc [("op", Json.str "remove"), ("path", Json.str path)] = .ok d' ↔
      removeAt (jsonPointerKeys path) doc = .ok d' := by
    have key : ∀ parts : List String,
        (match parts with
          | [] => (.error "doc is missing path" : Except Error Json)
          | [_] => .error "doc is missing path"
          | _ :: seg :: segs => removeAt ((seg :: segs).map decodePatchKey) doc) = .ok d' ↔
        removeAt (parts.tail.map decodePatchKey) doc = .ok d' := by
      intro parts
      rcases parts with _ | ⟨x, _ | ⟨seg, segs⟩⟩ <;> simp [removeAt]
    simp only [Patch.remove, hpath, jsonPointerKeys]
    exact key _
  have hops : Patch.applyOps (removePatch path) doc = .ok d' ↔
      removeAt (jsonPointerKeys path) doc = .ok d' := by
    rw [← hrem]
    unfold removePatch
    simp only [Patch.applyOps, hop, if_true]
    cases Patch.remove doc [("op", Json.str "remove"), ("path", Json.str path)] <;> simp
  cases doc with
  | obj fields => simpa [Patch.Apply] using hops
  | arr elems => simpa [Patch.Apply] using hops
  | null => simpa [Patch.Apply] using hops
  | bool b =>
    simp only [Patch.Apply, false_iff, reduceCtorEq]
    exact removeAt_scalar _ (.bool b) rfl d'
  | num m =>
    simp only [Patch.Apply, false_iff, reduceCtorEq]
    exact removeAt_scalar _ (.num m) rfl d'
  | str t =>
    simp only [Patch.Apply, false_iff, reduceCtorEq]
    exact removeAt_scalar _ (.str t) rfl d'

theorem except_error_iff (x : Except Error Json) : (∃ e, x = .error e) ↔ ∀ d, x ≠ .ok d := by
  cases x <;> simp

theorem apply_removePatch_error (path : String) (doc : Json) :
    (∃ e, (removePatch path).Apply doc = .error e) ↔
      ∃ e, removeAt (jsonPointerKeys path) doc = .error e := by
  rw [except_error_iff, except_error_iff]
  constructor
  · intro h d hd; exact h d ((apply_removePatch_ok path doc d).mpr hd)
  · intro h d hd; exact h d ((apply_removePatch_ok path doc d).mp hd)

theorem applyOrSkip_fails_after (rule other : normalizerPatch) (path opath : String) (d : Json)
    (hr : rule.patch = removePatch path) (hk : endsInKey path = true)
    (ho : other.patch = removePatch opath)
    (hfail : other = rule ∨ ∃ e, other.patch.Apply d = .error e) :
    ∃ e, other.patch.Apply (applyOrSkip d rule) = .error e := by
  cases hap : rule.patch.Apply d with
  | error e =>
    have hd : applyOrSkip d rule = d := by simp [applyOrSkip, hap]
    rw [hd]
    rcases hfail with h | h
    · subst h; exact ⟨e, hap⟩
    · exact h
  | ok d' =>
    have hd : applyOrSkip d rule = d' := by simp [applyOrSkip, hap]
    rw [hd]
    rw [hr] at hap
    have hrm := (apply_removePatch_ok path d d').mp hap
    rw [ho]
    rw [apply_removePatch_error]
    rcases hfail with h | h
    · subst h
      have : opath = path := by
        have := ho.symm.trans hr
        simpa [removePatch] using this
      subst this
      exact removeAt_twice_fails _ d d' hk hrm
    · rw [ho, apply_removePatch_error] at h
      exact removeAt_stays_failed _ _ d d' hk hrm h

theorem foldl_applyOrSkip_all_fail (rules : List normalizerPatch) :
    ∀ (done : List normalizerPatch) (d : Json),
      (∀ r ∈ done ++ rules, ∃ path, r.patch = removePatch path ∧ endsInKey path = true) →
      (∀ r ∈ done, ∃ e, r.patch.Apply d = .error e) →
      ∀ r ∈ done ++ rules, ∃ e, r.patch.Apply (rules.foldl applyOrSkip d) = .error e := by
  induction rules with
  | nil => intro done d _ hdone r hr; simpa using hdone r (by simpa using hr)
  | cons q rest ih =>
    intro done d hgood hdone r hr
    obtain ⟨qpath, hq, hqk⟩ := hgood q (by simp)
    have hstep : ∀ r ∈ done ++ [q], ∃ e, r.patch.Apply (applyOrSkip d q) = .error e := by
      intro r hr
      obtain ⟨rpath, hrp, _⟩ := hgood r (by
        rcases List.mem_append.mp hr with h | h
        · exact List.mem_append_left _ h
        · exact List.mem_append_right _ (by
            rw [List.mem_singleton] at h; rw [h]; exact List.mem_cons_self _ _))
      apply applyOrSkip_fails_after q r qpath rpath d hq hqk hrp
      rcases List.mem_append.mp hr with h | h
      · exact Or.inr (hdone r h)
      · exact Or.inl (List.mem_singleton.mp h)
    have := ih (done ++ [q]) (applyOrSkip d q) (by simpa using hgood) hstep r (by simpa using hr)
    simpa using this

theorem foldl_applyOrSkip_of_all_fail (rules : List normalizerPatch) (d : Json)
    (h : ∀ r ∈ rules, ∃ e, r.patch.Apply d = .error e) : rules.foldl applyOrSkip d = d := by
  induction rules with
  | nil => rfl
  | cons q rest ih =>
    obtain ⟨e, he⟩ := h q (by simp)
    have hd : applyOrSkip d q = d := by simp [applyOrSkip, he]
    simp only [List.foldl_cons, hd]
    exact ih (fun r hr => h r (List.mem_cons_of_mem _ hr))

theorem foldl_applyOrSkip_idempotent (rules : List normalizerPatch) (d : Json)
    (h : ∀ r ∈ rules, ∃ path, r.patch = removePatch path ∧ endsInKey path = true) :
    rules.foldl applyOrSkip (rules.foldl applyOrSkip d) = rules.foldl applyOrSkip d := by
  apply foldl_applyOrSkip_of_all_fail
  intro r hr
  exact foldl_applyOrSkip_all_fail rules [] d (by simpa using h) (by simp) r (by simpa using hr)

theorem unstructured_roundtrip (doc : Json) (un un' : Unstructured)
    (h : unstructuredEnv.Unmarshal doc un = (un', none)) :
    unstructuredEnv.Marshal un' = .ok doc ∧ unstructuredEnv.Unmarshal doc un' = (un', none) := by
  cases doc with
  | obj fields =>
    simp only [unstructuredEnv, Unstructured.UnmarshalJSON] at h ⊢
    by_cases hk : (Unstructured.GroupVersionKind { Object := fields }).Kind = ""
    · simp [hk] at h
    · simp [hk] at h
      subst h
      simp [Unstructured.MarshalJSON, hk]
  | arr elems => simp [unstructuredEnv, Unstructured.UnmarshalJSON] at h
  | null => simp [unstructuredEnv, Unstructured.UnmarshalJSON] at h
  | bool b => simp [unstructuredEnv, Unstructured.UnmarshalJSON] at h
  | num m => simp [unstructuredEnv, Unstructured.UnmarshalJSON] at h
  | str t => simp [unstructuredEnv, Unstructured.UnmarshalJSON] at h

theorem matched_congr {R : Type} (env : Env R) (n : ignoreNormalizer) (un un' : R)
    (hgk : (env.GroupVersionKind un').GroupKind = (env.GroupVersionKind un).GroupKind)
    (hname : env.GetName un' = env.GetName un)
    (hns : env.GetNamespace un' = env.GetNamespace un) :
    ignoreNormalizer.matched env n un' = ignoreNormalizer.matched env n un := by
  simp only [matched_eq_filter, ignoreNormalizer.isMatch, hgk, hname, hns]

theorem Json.atKeys_cons_some (con v : Json) (k : String) (rest : List String)
    (h : con.atKeys (k :: rest) = some v) :
    ∃ fields child, con = .obj fields ∧ fieldsGet k fields = some child ∧
      child.atKeys rest = some v := by
  cases con with
  | obj fields =>
    simp only [Json.atKeys, Json.field] at h
    cases hg : fieldsGet k fields with
    | none => simp [hg] at h
    | some child => simp [hg] at h; exact ⟨fields, child, rfl, hg, h⟩
  | arr elems => simp [Json.atKeys, Json.field] at h
  | null => simp [Json.atKeys, Json.field] at h
  | bool b => simp [Json.atKeys, Json.field] at h
  | num m => simp [Json.atKeys, Json.field] at h
  | str t => simp [Json.atKeys, Json.field] at h

/-- Removal at a path of object keys that leads to a value: it succeeds; the path and all
below it are absent from the result, every path that neither extends it nor leads to it keeps
its value, and the objects on the way are still objects. -/
theorem removeAt_atKeys (keys : List String) :
    ∀ con v : Json, keys ≠ [] → con.atKeys keys = some v →
      ∃ con', removeAt keys con = .ok con' ∧
        (∀ q, keys <+: q → con'.atPath q = none) ∧
        (∀ q, ¬ keys <+: q → ¬ q <+: keys → con'.atPath q = con.atPath q) ∧
        (∀ q, q <+: keys → q ≠ keys → ∃ fields, con'.atPath q = some (.obj fields)) := by
  induction keys with
  | nil => intro con v h; exact absurd rfl h
  | cons k rest ih =>
    intro con v _ hv
    obtain ⟨fields, child, hcon, hchild, hrest⟩ := Json.atKeys_cons_some con v k rest hv
    subst hcon
    cases rest with
    | nil =>
      refine ⟨.obj (fieldsDelete k fields), by simp [removeAt, Json.remove, hchild], ?_, ?_, ?_⟩
      · intro q hq
        obtain ⟨t, rfl⟩ := hq
        simp [Json.atPath, Json.get, fieldsGet_fieldsDelete]
      · intro q h1 h2
        cases q with
        | nil => exact absurd List.nil_prefix h2
        | cons a q' =>
          have ha : a ≠ k := by
            intro hak; subst hak
            exact h1 (List.cons_prefix_cons.mpr ⟨rfl, List.nil_prefix⟩)
          simp [Json.atPath, Json.get, fieldsGet_fieldsDelete, ha]
      · intro q h1 h2
        cases q with
        | nil => exact ⟨_, rfl⟩
        | cons a q' =>
          obtain ⟨rfl, hq'⟩ := List.cons_prefix_cons.mp h1
          have : q' = [] := List.prefix_nil.mp hq'
          subst this
          exact absurd rfl h2
    | cons k2 rest' =>
      obtain ⟨cfields, gchild, hc, _, _⟩ := Json.atKeys_cons_some child v k2 rest' hrest
      obtain ⟨child', hrm, habs, hframe, hanc⟩ := ih child v (by simp) hrest
      have hcont : child.isContainer = true := by rw [hc]; rfl
      refine ⟨.obj (fieldsSet k child' fields), ?_, ?_, ?_, ?_⟩
      · rw [removeAt_cons_cons_ok]
        exact ⟨child, child', by simp [Json.get, hchild], hcont, hrm, by simp [Json.set]⟩
      · intro q hq
        cases q with
        | nil => simp at hq
        | cons a q' =>
          obtain ⟨rfl, hq'⟩ := List.cons_prefix_cons.mp hq
          simp only [Json.atPath, Json.get, fieldsGet_fieldsSet, if_true, hchild, Option.map_some']
          exact habs q' hq'
      · intro q h1 h2
        cases q with
        | nil => exact absurd List.nil_prefix h2
        | cons a q' =>
          by_cases ha : a = k
          · subst ha
            simp only [Json.atPath, Json.get, fieldsGet_fieldsSet, if_true, hchild,
              Option.map_some']
            apply hframe q'
            · intro h; exact h1 (List.cons_prefix_cons.mpr ⟨rfl, h⟩)
            · intro h; exact h2 (List.cons_prefix_cons.mpr ⟨rfl, h⟩)
          · simp [Json.atPath, Json.get, fieldsGet_fieldsSet, ha]
      · intro q h1 h2
        cases q with
        | nil => exact ⟨_, rfl⟩
        | cons a q' =>
          obtain ⟨rfl, hq'⟩ := List.cons_prefix_cons.mp h1
          simp only [Json.atPath, Json.get, fieldsGet_fieldsSet, if_true, hchild,
            Option.map_some']
          exact hanc q' hq' (by intro h; exact h2 (by rw [h]))

/-! ## Lemmas on the compilation of overrides -/

theorem appendOverrides_of_parse {R : Type} (env : Env R)
    (overrides : List (String × ResourceOverride)) :
    ∀ ignore : List ResourceIgnoreDifferences,
      (∀ kv ∈ overrides, kv.2.IgnoreDifferences ≠ "" →
        ∃ s, env.yamlUnmarshal kv.2.IgnoreDifferences = .ok s) →
      NewIgnoreNormalizer.appendOverrides env overrides ignore =
        .ok (ignore ++ overrideDeclarations env overrides) := by
  induction overrides with
  | nil => intro ignore _; simp [NewIgnoreNormalizer.appendOverrides, overrideDeclarations]
  | cons kv rest ih =>
    intro ignore h
    obtain ⟨key, override⟩ := kv
    have hrest : ∀ kv ∈ rest, kv.2.IgnoreDifferences ≠ "" →
        ∃ s, env.yamlUnmarshal kv.2.IgnoreDifferences = .ok s :=
      fun kv hkv => h kv (List.mem_cons_of_mem _ hkv)
    by_cases hb : override.IgnoreDifferences = ""
    · have := ih ignore hrest
      simp [NewIgnoreNormalizer.appendOverrides, hb, this, overrideDeclarations]
    · obtain ⟨s, hs⟩ := h (key, override) (List.mem_cons_self _ _) hb
      have := ih (ignore ++ [ResourceIgnoreDifferences.mk (getGroupKindForOverrideKey key).1
        (getGroupKindForOverrideKey key).2.1 "" "" s.JSONPointers]) hrest
      simp [NewIgnoreNormalizer.appendOverrides, hb, hs, this, overrideDeclarations]

theorem newIgnoreNormalizer_of_parse {R : Type} (env : Env R)
    (ignore : List ResourceIgnoreDifferences) (overrides : List (String × ResourceOverride))
    (h : ∀ kv ∈ overrides, kv.2.IgnoreDifferences ≠ "" →
      ∃ s, env.yamlUnmarshal kv.2.IgnoreDifferences = .ok s) :
    NewIgnoreNormalizer env ignore overrides =
      .ok (ignoreNormalizer.mk ((ignore ++ overrideDeclarations env overrides).flatMap
        (fun d => d.JSONPointers.map (compiledRule d)))) := by
  simp [NewIgnoreNormalizer, appendOverrides_of_parse env overrides ignore h, compileIgnore_eq]

theorem mem_overrideDeclarations {R : Type} (env : Env R)
    (overrides : List (String × ResourceOverride)) (kv : String × ResourceOverride)
    (s : overrideIgnoreDiff) (hkv : kv ∈ overrides) (hb : kv.2.IgnoreDifferences ≠ "")
    (hs : env.yamlUnmarshal kv.2.IgnoreDifferences = .ok s) :
    ResourceIgnoreDifferences.mk (getGroupKindForOverrideKey kv.1).1
        (getGroupKindForOverrideKey kv.1).2.1 "" "" s.JSONPointers ∈
      overrideDeclarations env overrides := by
  unfold overrideDeclarations
  rw [List.mem_filterMap]
  exact ⟨kv, hkv, by simp [hb, hs]⟩

theorem getGroupKindForOverrideKey_malformed (key : String)
    (h : (getGroupKindForOverrideKey key).2.2 ≠ none) :
    (getGroupKindForOverrideKey key).1 = "" ∧ (getGroupKindForOverrideKey key).2.1 = "" := by
  have aux : ∀ parts : List String,
      (match parts with
        | [kind] => (("", kind, none) : String × String × Option Error)
        | [group, kind] => (group, kind, none)
        | _ => ("", "", some ("override key must be <group>/<kind> or <kind>, got: " ++ key))).2.2
          ≠ none →
      (match parts with
        | [kind] => (("", kind, none) : String × String × Option Error)
        | [group, kind] => (group, kind, none)
        | _ => ("", "", some ("override key must be <group>/<kind> or <kind>, got: " ++ key))).1
          = "" ∧
      (match parts with
        | [kind] => (("", kind, none) : String × String × Option Error)
        | [group, kind] => (group, kind, none)
        | _ => ("", "", some ("override key must be <group>/<kind> or <kind>, got: " ++ key))).2.1
          = "" := by
    intro parts
    rcases parts with _ | ⟨a, _ | ⟨b, _ | ⟨c, rest⟩⟩⟩ <;> simp
  exact aux _ h

/-! ## Lemmas on duplicate rules -/

theorem mem_of_mem_withoutLaterDuplicatesFrom (rules : List normalizerPatch) :
    ∀ (seen : List normalizerPatch) (r : normalizerPatch),
      r ∈ withoutLaterDuplicatesFrom rules seen → r ∈ rules := by
  induction rules with
  | nil => intro seen r h; simp [withoutLaterDuplicatesFrom] at h
  | cons q rest ih =>
    intro seen r h
    by_cases hq : q ∈ seen
    · simp only [withoutLaterDuplicatesFrom, hq, if_true] at h
      exact List.mem_cons_of_mem _ (ih seen r h)
    · simp only [withoutLaterDuplicatesFrom, hq, if_false, List.mem_cons] at h
      rcases h with h | h
      · rw [h]; exact List.mem_cons_self _ _
      · exact List.mem_cons_of_mem _ (ih _ r h)

theorem mem_withoutLaterDuplicatesFrom (rules : List normalizerPatch) :
    ∀ (seen : List normalizerPatch) (r : normalizerPatch),
      r ∈ rules → r ∉ seen → r ∈ withoutLaterDuplicatesFrom rules seen := by
  induction rules with
  | nil => intro seen r h; simp at h
  | cons q rest ih =>
    intro seen r h hns
    by_cases hq : q ∈ seen
    · simp only [withoutLaterDuplicatesFrom, hq, if_true]
      rcases List.mem_cons.mp h with h | h
      · subst h; exact absurd hq hns
      · exact ih seen r h hns
    · simp only [withoutLaterDuplicatesFrom, hq, if_false, List.mem_cons]
      by_cases hrq : r = q
      · exact Or.inl hrq
      · right
        rcases List.mem_cons.mp h with h | h
        · exact absurd h hrq
        · exact ih _ r h (by simp [hrq, hns])

theorem foldl_applyOrSkip_withoutLaterDuplicates (p : normalizerPatch → Bool)
    (rules : List normalizerPatch) :
    ∀ (seen : List normalizerPatch) (d : Json),
      (∀ r ∈ seen ++ rules, ∃ path, r.patch = removePatch path ∧ endsInKey path = true) →
      (∀ r ∈ seen, p r = true → ∃ e, r.patch.Apply d = .error e) →
      (rules.filter p).foldl applyOrSkip d =
        ((withoutLaterDuplicatesFrom rules seen).filter p).foldl applyOrSkip d := by
  induction rules with
  | nil => intro seen d _ _; rfl
  | cons q rest ih =>
    intro seen d hgood hseen
    have hgood' : ∀ r ∈ seen ++ rest, ∃ path, r.patch = removePatch path ∧ endsInKey path = true :=
      fun r hr => hgood r (by
        rcases List.mem_append.mp hr with h | h
        · exact List.mem_append_left _ h
        · exact List.mem_append_right _ (List.mem_cons_of_mem _ h))
    obtain ⟨qpath, hq, hqk⟩ := hgood q (by simp)
    by_cases hmem : q ∈ seen
    · simp only [withoutLaterDuplicatesFrom, hmem, if_true]
      by_cases hp : p q = true
      · obtain ⟨e, he⟩ := hseen q hmem hp
        have hd : applyOrSkip d q = d := by simp [applyOrSkip, he]
        simp only [List.filter_cons, hp, if_true, List.foldl_cons, hd]
        exact ih seen d hgood' hseen
      · simp only [List.filter_cons, hp, if_false]
        exact ih seen d hgood' hseen
    · simp only [withoutLaterDuplicatesFrom, hmem, if_false]
      have hgood'' : ∀ r ∈ (q :: seen) ++ rest,
          ∃ path, r.patch = removePatch path ∧ endsInKey path = true :=
        fun r hr => hgood r (by
          simp only [List.cons_append, List.mem_cons, List.mem_append] at hr ⊢
          tauto)
      by_cases hp : p q = true
      · simp only [List.filter_cons, hp, if_true, List.foldl_cons]
        apply ih (q :: seen) (applyOrSkip d q) hgood''
        intro r hr hpr
        obtain ⟨rpath, hrp, _⟩ := hgood'' r (List.mem_append_left _ hr)
        apply applyOrSkip_fails_after q r qpath rpath d hq hqk hrp
        rcases List.mem_cons.mp hr with h | h
        · exact Or.inl h
        · exact Or.inr (hseen r h hpr)
      · simp only [List.filter_cons, hp, if_false]
        apply ih (q :: seen) d hgood''
        intro r hr hpr
        rcases List.mem_cons.mp hr with h | h
        · subst h; exact absurd hpr hp
        · exact hseen r h hpr

/-! ## Lemmas on the order of the overrides -/

theorem overrideDeclarations_perm {R : Type} (env : Env R)
    (o₁ o₂ : List (String × ResourceOverride)) (h : o₁.Perm o₂) :
    (overrideDeclarations env o₁).Perm (overrideDeclarations env o₂) :=
  List.Perm.filterMap _ h

theorem overrideDeclarations_groupKind_sublist {R : Type} (env : Env R)
    (o : List (String × ResourceOverride)) :
    ((overrideDeclarations env o).map (fun d => (d.Group, d.Kind))).Sublist
      (o.map overrideGroupKind) := by
  induction o with
  | nil => simp [overrideDeclarations]
  | cons kv rest ih =>
    have ih' : ((List.filterMap _ rest).map (fun d : ResourceIgnoreDifferences =>
        (d.Group, d.Kind))).Sublist (rest.map overrideGroupKind) := ih
    by_cases hb : kv.2.IgnoreDifferences = ""
    · simp only [overrideDeclarations, List.filterMap_cons, hb, if_true, List.map_cons]
      exact List.Sublist.cons _ ih'
    · cases hy : env.yamlUnmarshal kv.2.IgnoreDifferences with
      | error e =>
        simp only [overrideDeclarations, List.filterMap_cons, hb, if_false, hy, List.map_cons]
        exact List.Sublist.cons _ ih'
      | ok s =>
        simp only [overrideDeclarations, List.filterMap_cons, hb, if_false, hy, List.map_cons]
        exact List.Sublist.cons₂ _ ih'

theorem filter_flatMap_compiledRule (p : normalizerPatch → Bool)
    (q : ResourceIgnoreDifferences → Bool)
    (hq : ∀ d path, p (compiledRule d path) = true → q d = true)
    (ds : List ResourceIgnoreDifferences) :
    (ds.flatMap (fun d => d.JSONPointers.map (compiledRule d))).filter p =
      (ds.filter q).flatMap (fun d => (d.JSONPointers.map (compiledRule d)).filter p) := by
  induction ds with
  | nil => rfl
  | cons d rest ih =>
    cases hqd : q d with
    | true =>
      simp only [List.flatMap_cons, List.filter_append, ih, List.filter_cons, hqd, if_true]
    | false =>
      have hnone : (d.JSONPointers.map (compiledRule d)).filter p = [] := by
        rw [List.filter_eq_nil_iff]
        intro r hr hpr
        obtain ⟨path, _, rfl⟩ := List.mem_map.mp hr
        rw [hq d path hpr] at hqd
        cases hqd
      simp only [List.flatMap_cons, List.filter_append, ih, List.filter_cons, hqd, hnone,
        List.nil_append, Bool.false_eq_true, if_false]

theorem perm_eq_of_length_le_one {α : Type} (l₁ l₂ : List α) (h : l₁.Perm l₂)
    (hlen : l₁.length ≤ 1) : l₁ = l₂ := by
  match l₁, hlen with
  | [], _ => exact (List.nil_perm.mp h).symm
  | [a], _ => exact List.singleton_perm.mp h
  | _ :: _ :: _, hlen => simp at hlen

theorem filter_groupKind_length_le_one (ds : List ResourceIgnoreDifferences) (gk : String × String)
    (hnodup : (ds.map (fun d => (d.Group, d.Kind))).Nodup) :
    (ds.filter (fun d => decide ((d.Group, d.Kind) = gk))).length ≤ 1 := by
  induction ds with
  | nil => simp
  | cons d rest ih =>
    rw [List.map_cons, List.nodup_cons] at hnodup
    by_cases hd : (d.Group, d.Kind) = gk
    · have hrest : rest.filter (fun d => decide ((d.Group, d.Kind) = gk)) = [] := by
        rw [List.filter_eq_nil_iff]
        intro x hx hxk
        apply hnodup.1
        rw [hd, ← of_decide_eq_true hxk]
        exact List.mem_map.mpr ⟨x, hx, rfl⟩
      simp [List.filter_cons, hd, hrest]
    · simp only [List.filter_cons, hd, decide_False, Bool.false_eq_true, if_false]
      exact ih hnodup.2

theorem normalize_congr_matched {R : Type} (env : Env R) (n₁ n₂ : ignoreNormalizer) (un : R)
    (h : ignoreNormalizer.matched env n₁ un = ignoreNormalizer.matched env n₂ un) :
    ignoreNormalizer.Normalize env n₁ un = ignoreNormalizer.Normalize env n₂ un := by
  simp only [ignoreNormalizer.Normalize, h]

theorem parse_of_newIgnoreNormalizer_ok {R : Type} (env : Env R)
    (ignore : List ResourceIgnoreDifferences) (overrides : List (String × ResourceOverride))
    (n : ignoreNormalizer) (hn : NewIgnoreNormalizer env ignore overrides = .ok n) :
    ∀ kv ∈ overrides, kv.2.IgnoreDifferences ≠ "" →
      ∃ s, env.yamlUnmarshal kv.2.IgnoreDifferences = .ok s := by
  intro kv hkv hb
  cases hy : env.yamlUnmarshal kv.2.IgnoreDifferences with
  | ok s => exact ⟨s, rfl⟩
  | error e =>
    obtain ⟨err, herr⟩ := appendOverrides_error env overrides ignore ⟨kv, hkv, hb, e, hy⟩
    simp [NewIgnoreNormalizer, herr] at hn

/-! ## Claims -/

/-- C1, refuted: (1) the rule set compiled from the single declaration
`\x7bgroup: apps, kind: Deployment, jsonPointers: [/kind]\x7d` and the sample Deployment, whose
document holds the value `Deployment` at `/kind`: the removal is applied, the deserialization of
the document without kind fails, and Normalize returns that error. (2) With the empty pointer,
whose value is the whole document, the removal fails and the document stays as it was. -/
theorem single_declaration_kind_removal_fails :
    NewIgnoreNormalizer unstructuredEnv [ignoreKind] [] =
        .ok { patches := [compiledRule ignoreKind "/kind"] } ∧
      (unstructuredEnv.GroupVersionKind sampleDeployment).GroupKind =
        { Group := "apps", Kind := "Deployment" } ∧
      unstructuredEnv.Marshal sampleDeployment = .ok (.obj sampleDeployment.Object) ∧
      (Json.obj sampleDeployment.Object).atKeys (jsonPointerKeys "/kind") =
        some (.str "Deployment") ∧
      (ignoreNormalizer.Normalize unstructuredEnv
        { patches := [compiledRule ignoreKind "/kind"] } sampleDeployment).2 =
        some "Object 'Kind' is missing" ∧
      jsonPointerKeys "" = [] ∧
      (Json.obj sampleDeployment.Object).atKeys (jsonPointerKeys "") =
        some (.obj sampleDeployment.Object) ∧
      ignoreNormalizer.Normalize unstructuredEnv
        { patches := [deploymentRule ""] } sampleDeployment = (sampleDeployment, none) := by
  refine ⟨?_, ?_, ?_, ?_, ?_, ?_, ?_, ?_⟩ <;> decide

/-- C1, amended: for the rule set compiled from a single declaration (group G, kind K, empty
namespace and name, one JSON pointer made of at least one object key) and a resource of group G
and kind K whose serialized document `doc` holds a value at the pointer, the compilation
succeeds with one rule and Normalize returns the outcome of deserializing a document `doc'`
that is `doc` with exactly the field at the pointer absent: the pointer and every path below it
have no value in `doc'`, every path that neither extends the pointer nor leads to it has the
value it has in `doc`, and the objects on the way to the field are still present. Normalize
returns no error unless that deserialization fails. -/
theorem single_declaration_removes_field {R : Type} (env : Env R) (G K path : String) (un : R)
    (doc v : Json)
    (hgk : (env.GroupVersionKind un).GroupKind = { Group := G, Kind := K })
    (hdoc : env.Marshal un = .ok doc)
    (hkeys : jsonPointerKeys path ≠ [])
    (hval : doc.atKeys (jsonPointerKeys path) = some v) :
    ∃ doc' : Json,
      NewIgnoreNormalizer env
          [{ Group := G, Kind := K, Name := "", Namespace := "", JSONPointers := [path] }] [] =
        .ok { patches := [compiledRule
          { Group := G, Kind := K, Name := "", Namespace := "", JSONPointers := [path] } path] } ∧
      ignoreNormalizer.Normalize env { patches := [compiledRule
          { Group := G, Kind := K, Name := "", Namespace := "", JSONPointers := [path] } path] } un =
        env.Unmarshal doc' un ∧
      (∀ q, jsonPointerKeys path <+: q → doc'.atPath q = none) ∧
      (∀ q, ¬ jsonPointerKeys path <+: q → ¬ q <+: jsonPointerKeys path →
        doc'.atPath q = doc.atPath q) ∧
      (∀ q, q <+: jsonPointerKeys path → q ≠ jsonPointerKeys path →
        ∃ fields, doc'.atPath q = some (.obj fields)) := by
  obtain ⟨doc', hrm, habs, hframe, hanc⟩ := removeAt_atKeys _ doc v hkeys hval
  have hap : (removePatch path).Apply doc = .ok doc' := (apply_removePatch_ok path doc doc').mpr hrm
  refine ⟨doc', ?_, ?_, habs, hframe, hanc⟩
  · simp [NewIgnoreNormalizer, NewIgnoreNormalizer.appendOverrides, compileIgnore_eq]
  · have hm : ignoreNormalizer.isMatch env un (compiledRule
        { Group := G, Kind := K, Name := "", Namespace := "", JSONPointers := [path] } path) := by
      simp [ignoreNormalizer.isMatch, compiledRule, hgk]
    have hmat : ignoreNormalizer.matched env { patches := [compiledRule
        { Group := G, Kind := K, Name := "", Namespace := "", JSONPointers := [path] } path] } un =
        [compiledRule
          { Group := G, Kind := K, Name := "", Namespace := "", JSONPointers := [path] } path] := by
      rw [matched_eq_filter]
      exact List.filter_eq_self.mpr (by intro a ha; rw [List.mem_singleton.mp ha]; exact decide_eq_true hm)
    have hloop : ignoreNormalizer.applyLoop [compiledRule
        { Group := G, Kind := K, Name := "", Namespace := "", JSONPointers := [path] } path] doc =
        doc' := by
      simp [ignoreNormalizer.applyLoop, compiledRule, hap]
    simp [ignoreNormalizer.Normalize, hmat, hdoc, hloop]

/-- C1 amended, at the sample Deployment with the pointer `/spec/replicas`: the result is the
Deployment without `spec.replicas`, `spec.template` and all other fields in place. -/
theorem single_declaration_removes_field_witness :
    (∃ doc' : Json,
      NewIgnoreNormalizer unstructuredEnv [ignoreReplicas] [] =
        .ok { patches := [compiledRule ignoreReplicas "/spec/replicas"] } ∧
      ignoreNormalizer.Normalize unstructuredEnv
          { patches := [compiledRule ignoreReplicas "/spec/replicas"] } sampleDeployment =
        unstructuredEnv.Unmarshal doc' sampleDeployment ∧
      (∀ q, jsonPointerKeys "/spec/replicas" <+: q → doc'.atPath q = none) ∧
      (∀ q, ¬ jsonPointerKeys "/spec/replicas" <+: q → ¬ q <+: jsonPointerKeys "/spec/replicas" →
        doc'.atPath q = (Json.obj sampleDeployment.Object).atPath q) ∧
      (∀ q, q <+: jsonPointerKeys "/spec/replicas" → q ≠ jsonPointerKeys "/spec/replicas" →
        ∃ fields, doc'.atPath q = some (.obj fields))) ∧
    ignoreNormalizer.Normalize unstructuredEnv
      { patches := [compiledRule ignoreReplicas "/spec/replicas"] } sampleDeployment =
      (sampleDeploymentNoReplicas, none) :=
  ⟨single_declaration_removes_field unstructuredEnv "apps" "Deployment" "/spec/replicas"
    sampleDeployment (.obj sampleDeployment.Object) (.num 3) (by decide) rfl (by decide)
    (by decide), by decide⟩

/-- C2, refuted: (1) on a list whose items are `\x7bbar\x7d` and `\x7bfoo\x7d`, the path `/items/0`
exists and the path `/items/0/foo` does not; with the rules in this order the first removal
moves the second item to index 0, the second removal then applies, and the result is not the
input with only the existing field removed. (2) On the sample Deployment the path `/kind`
exists and `/spec/paused` does not; the removal of `/kind` is applied and Normalize returns the
error of the deserialization. -/
theorem partial_failure_not_in_every_order :
    (ignoreNormalizer.isMatch unstructuredEnv sampleObjectList (listRule "/items/0") ∧
      ignoreNormalizer.isMatch unstructuredEnv sampleObjectList (listRule "/items/0/foo") ∧
      (listRule "/items/0").patch.Apply (.obj sampleObjectList.Object) =
        .ok (.obj [("apiVersion", .str "v1"), ("kind", .str "List"),
          ("items", .arr [.obj [("foo", .num 2)]])]) ∧
      (listRule "/items/0/foo").patch.Apply (.obj sampleObjectList.Object) =
        .error "Unable to remove nonexistent key: foo" ∧
      ignoreNormalizer.Normalize unstructuredEnv
        { patches := [listRule "/items/0", listRule "/items/0/foo"] } sampleObjectList =
        ({ Object := [("apiVersion", .str "v1"), ("kind", .str "List"),
          ("items", .arr [.obj []])] }, none)) ∧
    (ignoreNormalizer.isMatch unstructuredEnv sampleDeployment (deploymentRule "/kind") ∧
      ignoreNormalizer.isMatch unstructuredEnv sampleDeployment
        (deploymentRule "/spec/paused") ∧
      (deploymentRule "/kind").patch.Apply (.obj sampleDeployment.Object) =
        .ok (.obj (fieldsDelete "kind" sampleDeployment.Object)) ∧
      (deploymentRule "/spec/paused").patch.Apply (.obj sampleDeployment.Object) =
        .error "Unable to remove nonexistent key: paused" ∧
      (ignoreNormalizer.Normalize unstructuredEnv
        { patches := [deploymentRule "/spec/paused", deploymentRule "/kind"] }
        sampleDeployment).2 = some "Object 'Kind' is missing") := by
  refine ⟨⟨?_, ?_, ?_, ?_, ?_⟩, ⟨?_, ?_, ?_, ?_, ?_⟩⟩ <;> decide

/-- C2, amended: for two rules that both match the resource, one whose removal applies to the
serialized document (result `doc'`) and one whose removal fails on it, Normalize with the
failing rule first returns the outcome of deserializing `doc'`, the input with only the
existing field removed; with the existing rule first it does so whenever the existing path
does not end in an array index. No error is returned unless that deserialization fails. -/
theorem partial_failure_tolerance {R : Type} (env : Env R) (un : R) (doc doc' : Json)
    (A B : normalizerPatch) (pa pb : String)
    (hA : ignoreNormalizer.isMatch env un A) (hB : ignoreNormalizer.isMatch env un B)
    (hpa : A.patch = removePatch pa) (hpb : B.patch = removePatch pb)
    (hdoc : env.Marshal un = .ok doc)
    (hexists : A.patch.Apply doc = .ok doc')
    (hmissing : ∃ e, B.patch.Apply doc = .error e) :
    ignoreNormalizer.Normalize env { patches := [B, A] } un = env.Unmarshal doc' un ∧
      (endsInKey pa = true →
        ignoreNormalizer.Normalize env { patches := [A, B] } un = env.Unmarshal doc' un) := by
  obtain ⟨e, he⟩ := hmissing
  constructor
  · simp [ignoreNormalizer.Normalize, matched_eq_filter, hA, hB, hdoc,
      ignoreNormalizer.applyLoop, he, hexists]
  · intro hk
    have hB' : ∃ e', B.patch.Apply doc' = .error e' := by
      have := applyOrSkip_fails_after A B pa pb doc hpa hk hpb (Or.inr ⟨e, he⟩)
      simpa [applyOrSkip, hexists] using this
    obtain ⟨e', he'⟩ := hB'
    simp [ignoreNormalizer.Normalize, matched_eq_filter, hA, hB, hdoc,
      ignoreNormalizer.applyLoop, he', hexists]

/-- C2 amended, at the sample Deployment with the existing path `/spec/replicas` and the
missing path `/spec/paused`. -/
theorem partial_failure_tolerance_witness :
    ignoreNormalizer.Normalize unstructuredEnv
        { patches := [deploymentRule "/spec/paused", deploymentRule "/spec/replicas"] }
        sampleDeployment = (sampleDeploymentNoReplicas, none) ∧
      ignoreNormalizer.Normalize unstructuredEnv
        { patches := [deploymentRule "/spec/replicas", deploymentRule "/spec/paused"] }
        sampleDeployment = (sampleDeploymentNoReplicas, none) :=
  have h := partial_failure_tolerance unstructuredEnv sampleDeployment
    (.obj sampleDeployment.Object) (.obj sampleDeploymentNoReplicas.Object)
    (deploymentRule "/spec/replicas") (deploymentRule "/spec/paused") "/spec/replicas"
    "/spec/paused" (by decide) (by decide) rfl rfl rfl (by decide)
    ⟨"Unable to remove nonexistent key: paused", by decide⟩
  ⟨h.1.trans (by decide), (h.2 (by decide)).trans (by decide)⟩

/-- C3. No-match passthrough: when the (group, kind) of the resource equals the groupKind of no
compiled rule, Normalize returns success and the resource is the value it had before the call.
The statement holds for every resource boundary, so the resource is neither serialized nor
deserialized: the result is the same when serialization would fail. -/
theorem normalize_no_match_passthrough {R : Type} (env : Env R) (n : ignoreNormalizer) (un : R)
    (h : ∀ patch ∈ n.patches, patch.groupKind ≠ (env.GroupVersionKind un).GroupKind) :
    ignoreNormalizer.Normalize env n un = (un, none) := by
  have hm : ignoreNormalizer.matched env n un = [] := by
    rw [matched_eq_filter, List.filter_eq_nil_iff]
    intro p hp hmatch
    have := of_decide_eq_true hmatch
    exact h p hp this.1.symm
  simp [ignoreNormalizer.Normalize, hm]

/-- C3, at a ConfigMap against a rule set for Deployments, with a serialization that fails. -/
theorem normalize_no_match_passthrough_witness :
    failingMarshalEnv.Marshal sampleConfigMap = .error "json: unsupported value" ∧
    ignoreNormalizer.Normalize failingMarshalEnv
      { patches := [compiledRule ignoreReplicas "/spec/replicas"] } sampleConfigMap
      = (sampleConfigMap, none) :=
  ⟨rfl, normalize_no_match_passthrough failingMarshalEnv
    { patches := [compiledRule ignoreReplicas "/spec/replicas"] } sampleConfigMap (by decide)⟩

/-- C4. Wildcard matching on namespace and name: for a declaration with empty namespace and
empty name and a resource whose (group, kind) equals the declaration's, every rule compiled
from the declaration is in the compiled rule set and is selected by Normalize, whatever the
namespace and name of the resource. -/
theorem wildcard_namespace_and_name_selected {R : Type} (env : Env R)
    (ignore : List ResourceIgnoreDifferences) (overrides : List (String × ResourceOverride))
    (n : ignoreNormalizer) (d : ResourceIgnoreDifferences) (un : R)
    (hn : NewIgnoreNormalizer env ignore overrides = .ok n) (hd : d ∈ ignore)
    (hns : d.Namespace = "") (hname : d.Name = "")
    (hgk : (env.GroupVersionKind un).GroupKind = { Group := d.Group, Kind := d.Kind }) :
    ∀ path ∈ d.JSONPointers,
      compiledRule d path ∈ n.patches ∧
        compiledRule d path ∈ ignoreNormalizer.matched env n un := by
  intro path hpath
  have hmem : compiledRule d path ∈ n.patches := by
    rw [newIgnoreNormalizer_ok env ignore overrides n hn, List.mem_flatMap]
    exact ⟨d, List.mem_append_left _ hd, List.mem_map.mpr ⟨path, hpath, rfl⟩⟩
  refine ⟨hmem, (mem_matched_iff env n un _).mpr ⟨hmem, ?_⟩⟩
  simp [ignoreNormalizer.isMatch, compiledRule, hgk, hns, hname]

/-- C4, at the sample Deployment (namespace `prod`, name `web`). -/
theorem wildcard_namespace_and_name_selected_witness :
    compiledRule ignoreReplicas "/spec/replicas" ∈
      ignoreNormalizer.matched unstructuredEnv
        { patches := [compiledRule ignoreReplicas "/spec/replicas"] } sampleDeployment :=
  (wildcard_namespace_and_name_selected unstructuredEnv [ignoreReplicas] []
    { patches := [compiledRule ignoreReplicas "/spec/replicas"] } ignoreReplicas sampleDeployment
    (by decide) (by decide) (by decide) (by decide) (by decide) "/spec/replicas" (by decide)).2

/-- C5, refuted: the declaration with empty group and kind Deployment compiles to one rule,
which is not selected for the Deployment of group `apps`; Normalize returns the resource as it
was, `spec.replicas` included. -/
theorem empty_group_is_not_a_wildcard :
    NewIgnoreNormalizer unstructuredEnv [ignoreReplicasEmptyGroup] [] =
        .ok { patches := [compiledRule ignoreReplicasEmptyGroup "/spec/replicas"] } ∧
      (unstructuredEnv.GroupVersionKind sampleDeployment).GroupKind =
        { Group := "apps", Kind := "Deployment" } ∧
      ignoreNormalizer.matched unstructuredEnv
        { patches := [compiledRule ignoreReplicasEmptyGroup "/spec/replicas"] }
        sampleDeployment = [] ∧
      ignoreNormalizer.Normalize unstructuredEnv
        { patches := [compiledRule ignoreReplicasEmptyGroup "/spec/replicas"] }
        sampleDeployment = (sampleDeployment, none) := by
  decide

/-- C5, amended: an empty group in a declaration is matched literally. For a declaration with
empty group and kind K and a resource of kind K in group G whose namespace and name satisfy the
declaration, each rule compiled from the declaration is selected by Normalize exactly when G is
empty. -/
theorem empty_group_selects_empty_group_only {R : Type} (env : Env R)
    (ignore : List ResourceIgnoreDifferences) (overrides : List (String × ResourceOverride))
    (n : ignoreNormalizer) (d : ResourceIgnoreDifferences) (un : R)
    (hn : NewIgnoreNormalizer env ignore overrides = .ok n) (hd : d ∈ ignore)
    (hgroup : d.Group = "")
    (hkind : (env.GroupVersionKind un).Kind = d.Kind)
    (hname : d.Name = "" ∨ d.Name = env.GetName un)
    (hns : d.Namespace = "" ∨ d.Namespace = env.GetNamespace un) :
    ∀ path ∈ d.JSONPointers,
      (compiledRule d path ∈ ignoreNormalizer.matched env n un ↔
        (env.GroupVersionKind un).Group = "") := by
  intro path hpath
  have hmem : compiledRule d path ∈ n.patches := by
    rw [newIgnoreNormalizer_ok env ignore overrides n hn, List.mem_flatMap]
    exact ⟨d, List.mem_append_left _ hd, List.mem_map.mpr ⟨path, hpath, rfl⟩⟩
  rw [mem_matched_iff]
  constructor
  · rintro ⟨_, hgk, _, _⟩
    have := congrArg GroupKind.Group hgk
    simpa [GroupVersionKind.GroupKind, compiledRule, hgroup] using this
  · intro hg
    refine ⟨hmem, ?_, hname, hns⟩
    simp [GroupVersionKind.GroupKind, compiledRule, hgroup, hg, hkind]

/-- C5 amended, at the ConfigMap of the core (empty) group. -/
theorem empty_group_selects_empty_group_only_witness :
    compiledRule ignoreSecret "/data/secret" ∈
        ignoreNormalizer.matched unstructuredEnv
          { patches := [compiledRule ignoreSecret "/data/secret"] } sampleConfigMap ↔
      (unstructuredEnv.GroupVersionKind sampleConfigMap).Group = "" :=
  empty_group_selects_empty_group_only unstructuredEnv [ignoreSecret] []
    { patches := [compiledRule ignoreSecret "/data/secret"] } ignoreSecret sampleConfigMap
    (by decide) (by decide) (by decide) (by decide) (by decide) (by decide)
    "/data/secret" (by decide)

/-- C6, refuted: (1) with the rule `/spec/containers/0` a Pod with two containers loses one
container at each call, so the second call changes the result of the first; (2) with the rules
`/apiVersion` for group `apps` and `/spec` for the empty group, the first call on a Deployment
of group `apps` removes `apiVersion`, after which the resource is of the empty group and the
second call removes `spec`. Both calls succeed in both cases. -/
theorem normalize_not_idempotent :
    (∃ n un₁ un₂, NewIgnoreNormalizer unstructuredEnv [ignoreFirstContainer] [] = .ok n ∧
      ignoreNormalizer.Normalize unstructuredEnv n samplePod = (un₁, none) ∧
      ignoreNormalizer.Normalize unstructuredEnv n un₁ = (un₂, none) ∧ un₂ ≠ un₁) ∧
    (∃ n un₁ un₂,
      NewIgnoreNormalizer unstructuredEnv [ignoreApiVersion, ignoreSpecEmptyGroup] [] = .ok n ∧
      ignoreNormalizer.Normalize unstructuredEnv n sampleDeployment = (un₁, none) ∧
      ignoreNormalizer.Normalize unstructuredEnv n un₁ = (un₂, none) ∧ un₂ ≠ un₁) := by
  refine ⟨⟨{ patches := [compiledRule ignoreFirstContainer "/spec/containers/0"] },
    { Object := [("apiVersion", .str "v1"), ("kind", .str "Pod"),
        ("spec", .obj [("containers", .arr [.obj [("name", .str "sidecar")]])])] },
    { Object := [("apiVersion", .str "v1"), ("kind", .str "Pod"),
        ("spec", .obj [("containers", .arr [])])] }, ?_⟩,
    ⟨{ patches := [compiledRule ignoreApiVersion "/apiVersion",
        compiledRule ignoreSpecEmptyGroup "/spec"] },
    { Object := [("kind", .str "Deployment"),
        ("metadata", .obj [("name", .str "web"), ("namespace", .str "prod")]),
        ("spec", .obj [("replicas", .num 3),
          ("template", .obj [("spec", .obj [("containers",
            .arr [.obj [("name", .str "app")]])])])])] },
    { Object := [("kind", .str "Deployment"),
        ("metadata", .obj [("name", .str "web"), ("namespace", .str "prod")])] }, ?_⟩⟩
  · decide
  · decide

/-- C6, amended: idempotence for removals of object fields. For a compiled rule set in which
no path ends in an array index, a resource on which Normalize succeeds leaving its group, kind,
namespace and name as they were, and a serialization that round-trips the result, a second call
with the same rule set succeeds and leaves the resource equal to the result of the first. -/
theorem normalize_idempotent_for_key_removals {R : Type} (env : Env R)
    (ignore : List ResourceIgnoreDifferences) (overrides : List (String × ResourceOverride))
    (n : ignoreNormalizer) (un un' : R)
    (hn : NewIgnoreNormalizer env ignore overrides = .ok n)
    (hpaths : ∀ d ∈ ignore ++ overrideDeclarations env overrides,
      ∀ path ∈ d.JSONPointers, endsInKey path = true)
    (hfirst : ignoreNormalizer.Normalize env n un = (un', none))
    (hgk : (env.GroupVersionKind un').GroupKind = (env.GroupVersionKind un).GroupKind)
    (hname : env.GetName un' = env.GetName un)
    (hns : env.GetNamespace un' = env.GetNamespace un)
    (hround : ∀ doc, env.Unmarshal doc un = (un', none) →
      env.Marshal un' = .ok doc ∧ env.Unmarshal doc un' = (un', none)) :
    ignoreNormalizer.Normalize env n un' = (un', none) := by
  have hm := matched_congr env n un un' hgk hname hns
  have hrules : ∀ r ∈ ignoreNormalizer.matched env n un,
      ∃ path, r.patch = removePatch path ∧ endsInKey path = true := by
    intro r hr
    have hr' := ((mem_matched_iff env n un r).mp hr).1
    rw [newIgnoreNormalizer_ok env ignore overrides n hn, List.mem_flatMap] at hr'
    obtain ⟨d, hd, hrd⟩ := hr'
    obtain ⟨path, hpath, rfl⟩ := List.mem_map.mp hrd
    exact ⟨path, rfl, hpaths d hd path hpath⟩
  unfold ignoreNormalizer.Normalize at hfirst ⊢
  simp only [hm]
  by_cases h0 : (ignoreNormalizer.matched env n un).length = 0
  · simp only [h0, if_true]
  · simp only [h0, if_false] at hfirst ⊢
    cases hdoc : env.Marshal un with
    | error e => simp [hdoc] at hfirst
    | ok docData =>
      simp only [hdoc] at hfirst
      obtain ⟨hmar, hun⟩ := hround _ hfirst
      simp only [hmar]
      rw [applyLoop_eq_foldl] at hun ⊢
      rw [applyLoop_eq_foldl, foldl_applyOrSkip_idempotent _ _ hrules]
      exact hun

/-- C6 amended, at the sample Deployment with the rule `/spec/replicas`. -/
theorem normalize_idempotent_for_key_removals_witness :
    ignoreNormalizer.Normalize unstructuredEnv
      { patches := [compiledRule ignoreReplicas "/spec/replicas"] } sampleDeploymentNoReplicas
      = (sampleDeploymentNoReplicas, none) :=
  normalize_idempotent_for_key_removals unstructuredEnv [ignoreReplicas] []
    { patches := [compiledRule ignoreReplicas "/spec/replicas"] } sampleDeployment
    sampleDeploymentNoReplicas (by decide) (by decide) (by decide) (by decide) (by decide)
    (by decide) (fun doc h => unstructured_roundtrip doc _ _ h)

/-- C7. Override merge: when the override key parses to (group G, kind K) and the blob parses
to the path list P (an empty blob holding no path), compiling the single override and compiling
the single declaration with group G, kind K, empty namespace, empty name and paths P give the
same rule set, hence the same Normalize on every resource. -/
theorem override_merge_same_rules {R : Type} (env : Env R) (key blob : String) (G K : String)
    (P : List String)
    (hkey : getGroupKindForOverrideKey key = (G, K, none))
    (hblob : env.yamlUnmarshal blob = .ok { JSONPointers := P })
    (hempty : blob = "" → P = []) :
    ∃ n : ignoreNormalizer,
      NewIgnoreNormalizer env [] [(key, { IgnoreDifferences := blob })] = .ok n ∧
      NewIgnoreNormalizer env
        [{ Group := G, Kind := K, Name := "", Namespace := "", JSONPointers := P }] [] = .ok n ∧
      n.patches = P.map (compiledRule
        { Group := G, Kind := K, Name := "", Namespace := "", JSONPointers := P }) := by
  refine ⟨{ patches := P.map (compiledRule
    { Group := G, Kind := K, Name := "", Namespace := "", JSONPointers := P }) }, ?_, ?_, rfl⟩
  · by_cases hb : blob = ""
    · have hP := hempty hb
      subst hP
      simp [NewIgnoreNormalizer, NewIgnoreNormalizer.appendOverrides, hb,
        NewIgnoreNormalizer.compileIgnore]
    · simp [NewIgnoreNormalizer, NewIgnoreNormalizer.appendOverrides, hb, hblob, hkey,
        compileIgnore_eq]
  · simp [NewIgnoreNormalizer, NewIgnoreNormalizer.appendOverrides, compileIgnore_eq]

/-- C7, at the key `ConfigMap` with jsonPointers `[/data/secret]`. -/
theorem override_merge_same_rules_witness :
    ∃ n : ignoreNormalizer,
      NewIgnoreNormalizer unstructuredEnv [] [("ConfigMap", { IgnoreDifferences := secretBlob })]
        = .ok n ∧
      NewIgnoreNormalizer unstructuredEnv [ignoreSecret] [] = .ok n ∧
      n.patches = [compiledRule ignoreSecret "/data/secret"] :=
  override_merge_same_rules unstructuredEnv "ConfigMap" secretBlob "" "ConfigMap"
    ["/data/secret"] (by decide) (by decide) (by decide)

/-- C8. Fatal compile, atomically: when some override has a non-empty blob that fails to
parse, NewIgnoreNormalizer returns an error and no rule set, whatever the direct declarations
and the other overrides are. -/
theorem unparsable_override_is_fatal {R : Type} (env : Env R)
    (ignore : List ResourceIgnoreDifferences) (overrides : List (String × ResourceOverride))
    (h : ∃ kv ∈ overrides, kv.2.IgnoreDifferences ≠ "" ∧
      ∃ err, env.yamlUnmarshal kv.2.IgnoreDifferences = .error err) :
    ∃ err, NewIgnoreNormalizer env ignore overrides = .error err := by
  obtain ⟨err, herr⟩ := appendOverrides_error env overrides ignore h
  exact ⟨err, by simp [NewIgnoreNormalizer, herr]⟩

/-- C8, with a direct declaration, a well-formed override and a broken one. -/
theorem unparsable_override_is_fatal_witness :
    ∃ err, NewIgnoreNormalizer unstructuredEnv [ignoreReplicas]
      [("ConfigMap", { IgnoreDifferences := secretBlob }),
       ("apps/Deployment", { IgnoreDifferences := brokenBlob })] = .error err :=
  unparsable_override_is_fatal unstructuredEnv [ignoreReplicas]
    [("ConfigMap", { IgnoreDifferences := secretBlob }),
     ("apps/Deployment", { IgnoreDifferences := brokenBlob })]
    ⟨("apps/Deployment", { IgnoreDifferences := brokenBlob }), by decide, by decide,
      "yaml: unmarshal errors", by decide⟩

/-- C9. Compiled order and cardinality: when NewIgnoreNormalizer succeeds, the rule sequence is
the concatenation, over the merged declaration list (direct declarations in their order, then
the override-derived declarations), of one rule per path in path order, each with its
declaration's group, kind, namespace and name; its length is the sum of the path counts. -/
theorem compiled_order_and_cardinality {R : Type} (env : Env R)
    (ignore : List ResourceIgnoreDifferences) (overrides : List (String × ResourceOverride))
    (n : ignoreNormalizer) (hn : NewIgnoreNormalizer env ignore overrides = .ok n) :
    n.patches = (ignore ++ overrideDeclarations env overrides).flatMap
        (fun d => d.JSONPointers.map (compiledRule d)) ∧
      n.patches.length =
        ((ignore ++ overrideDeclarations env overrides).map
          (fun d => d.JSONPointers.length)).sum := by
  have h := newIgnoreNormalizer_ok env ignore overrides n hn
  refine ⟨h, ?_⟩
  rw [h]
  generalize ignore ++ overrideDeclarations env overrides = ds
  induction ds with
  | nil => rfl
  | cons d rest ih => simp [List.flatMap_cons, ih]

/-- C9, with a two-path declaration, a declaration without paths and one override. -/
theorem compiled_order_and_cardinality_witness :
    ({ patches := [compiledRule ignoreTwoPaths "/spec/replicas",
        compiledRule ignoreTwoPaths "/metadata/labels",
        compiledRule ignoreSecret "/data/secret"] } : ignoreNormalizer).patches =
      ([ignoreTwoPaths, ignoreNoPaths] ++ overrideDeclarations unstructuredEnv
          [("ConfigMap", { IgnoreDifferences := secretBlob })]).flatMap
        (fun d => d.JSONPointers.map (compiledRule d)) ∧
      ({ patches := [compiledRule ignoreTwoPaths "/spec/replicas",
        compiledRule ignoreTwoPaths "/metadata/labels",
        compiledRule ignoreSecret "/data/secret"] } : ignoreNormalizer).patches.length =
        (([ignoreTwoPaths, ignoreNoPaths] ++ overrideDeclarations unstructuredEnv
          [("ConfigMap", { IgnoreDifferences := secretBlob })]).map
          (fun d => d.JSONPointers.length)).sum :=
  compiled_order_and_cardinality unstructuredEnv [ignoreTwoPaths, ignoreNoPaths]
    [("ConfigMap", { IgnoreDifferences := secretBlob })] _ (by decide)

/-- C10. Apply in match order: for a resource with at least one matching rule whose
serialization succeeds, Normalize deserializes into the resource the left fold, over the
matching rules in rule-set order, of the step "apply the removal, keep the document when it
fails", started from the serialized resource. -/
theorem normalize_applies_in_match_order {R : Type} (env : Env R) (n : ignoreNormalizer) (un : R)
    (docData : Json)
    (hmatch : ∃ rule ∈ n.patches, ignoreNormalizer.isMatch env un rule)
    (hdoc : env.Marshal un = .ok docData) :
    ignoreNormalizer.Normalize env n un =
      env.Unmarshal
        ((n.patches.filter (fun p => decide (ignoreNormalizer.isMatch env un p))).foldl
          applyOrSkip docData) un := by
  obtain ⟨rule, hmem, hrule⟩ := hmatch
  have hne : (ignoreNormalizer.matched env n un).length ≠ 0 := by
    have : rule ∈ ignoreNormalizer.matched env n un :=
      (mem_matched_iff env n un rule).mpr ⟨hmem, hrule⟩
    intro h0
    rw [List.length_eq_zero] at h0
    rw [h0] at this
    exact List.not_mem_nil _ this
  rw [matched_eq_filter] at hne
  simp only [ignoreNormalizer.Normalize, matched_eq_filter, if_neg hne, hdoc,
    applyLoop_eq_foldl]

/-- C10, with the rules `/items/0` and `/items/0` on an array of three elements: the first two
elements are removed. -/
theorem normalize_applies_in_match_order_witness :
    ignoreNormalizer.Normalize unstructuredEnv
      { patches := [compiledRule ignoreFirstItemTwice "/items/0",
          compiledRule ignoreFirstItemTwice "/items/0"] } sampleList =
      ({ Object := [("apiVersion", .str "v1"), ("kind", .str "List"),
          ("items", .arr [.str "c"])] }, none) :=
  (normalize_applies_in_match_order unstructuredEnv
    { patches := [compiledRule ignoreFirstItemTwice "/items/0",
        compiledRule ignoreFirstItemTwice "/items/0"] } sampleList (.obj sampleList.Object)
    ⟨compiledRule ignoreFirstItemTwice "/items/0", by decide, by decide⟩ rfl).trans (by decide)

/-- C11. Normalize returns an error exactly when at least one rule matches the resource and
either the serialization of the resource fails or the deserialization of the final patched
document (the fold of the matching removals, failures skipped) fails; the failure of a removal
never produces an error. When the serialization fails the resource is left as it was. -/
theorem normalize_error_iff {R : Type} (env : Env R) (n : ignoreNormalizer) (un : R) :
    ((ignoreNormalizer.Normalize env n un).2 ≠ none ↔
      (∃ rule ∈ n.patches, ignoreNormalizer.isMatch env un rule) ∧
        ((∃ err, env.Marshal un = .error err) ∨
          ∃ docData, env.Marshal un = .ok docData ∧
            (env.Unmarshal
              ((n.patches.filter (fun p => decide (ignoreNormalizer.isMatch env un p))).foldl
                applyOrSkip docData) un).2 ≠ none)) ∧
      (∀ err, env.Marshal un = .error err → (ignoreNormalizer.Normalize env n un).1 = un) := by
  have hex : (∃ rule ∈ n.patches, ignoreNormalizer.isMatch env un rule) ↔
      (ignoreNormalizer.matched env n un).length ≠ 0 := by
    rw [matched_eq_filter]
    constructor
    · rintro ⟨rule, hmem, hrule⟩ h0
      have : rule ∈ n.patches.filter (fun p => decide (ignoreNormalizer.isMatch env un p)) :=
        List.mem_filter.mpr ⟨hmem, decide_eq_true hrule⟩
      rw [List.length_eq_zero.mp h0] at this
      exact List.not_mem_nil _ this
    · intro h0
      cases hl : n.patches.filter (fun p => decide (ignoreNormalizer.isMatch env un p)) with
      | nil => rw [hl] at h0; exact absurd rfl h0
      | cons r rest =>
        have hr : r ∈ n.patches.filter (fun p => decide (ignoreNormalizer.isMatch env un p)) := by
          rw [hl]; exact List.mem_cons_self _ _
        obtain ⟨hmem, hdec⟩ := List.mem_filter.mp hr
        exact ⟨r, hmem, of_decide_eq_true hdec⟩
  constructor
  · rw [hex]
    by_cases h0 : (ignoreNormalizer.matched env n un).length = 0
    · simp [ignoreNormalizer.Normalize, h0]
    · cases hdoc : env.Marshal un with
      | error e => simp [ignoreNormalizer.Normalize, h0, hdoc]
      | ok docData =>
        have hfold : ignoreNormalizer.applyLoop (ignoreNormalizer.matched env n un) docData =
            (n.patches.filter (fun p => decide (ignoreNormalizer.isMatch env un p))).foldl
              applyOrSkip docData := by
          rw [applyLoop_eq_foldl, matched_eq_filter]
        simp only [ignoreNormalizer.Normalize, if_neg h0, hdoc, hfold]
        simp [h0]
  · intro err herr
    by_cases h0 : (ignoreNormalizer.matched env n un).length = 0
    · simp [ignoreNormalizer.Normalize, h0]
    · simp [ignoreNormalizer.Normalize, h0, herr]

/-- C11, at the sample Deployment with a serialization that fails: the error of the
serialization is returned and the resource is as it was. -/
theorem normalize_error_iff_witness :
    (ignoreNormalizer.Normalize failingMarshalEnv
        { patches := [deploymentRule "/spec/replicas"] } sampleDeployment).2 ≠ none ∧
      (ignoreNormalizer.Normalize failingMarshalEnv
        { patches := [deploymentRule "/spec/replicas"] } sampleDeployment).1 = sampleDeployment :=
  ⟨(normalize_error_iff failingMarshalEnv { patches := [deploymentRule "/spec/replicas"] }
      sampleDeployment).1.mpr
      ⟨⟨deploymentRule "/spec/replicas", by decide, by decide⟩,
        Or.inl ⟨"json: unsupported value", rfl⟩⟩,
    (normalize_error_iff failingMarshalEnv { patches := [deploymentRule "/spec/replicas"] }
      sampleDeployment).2 "json: unsupported value" rfl⟩

/-- C12. Malformed override key is tolerated: when every non-empty blob parses,
NewIgnoreNormalizer succeeds and compiles the merged declaration list as usual; for a record
whose key fails to parse, the derived declaration has empty group and kind (wildcard namespace
and name), its rules are in the rule set and are selected for no resource whose kind is
non-empty. -/
theorem malformed_override_key_tolerated {R : Type} (env : Env R)
    (ignore : List ResourceIgnoreDifferences) (overrides : List (String × ResourceOverride))
    (hparse : ∀ kv ∈ overrides, kv.2.IgnoreDifferences ≠ "" →
      ∃ s, env.yamlUnmarshal kv.2.IgnoreDifferences = .ok s) :
    ∃ n : ignoreNormalizer,
      NewIgnoreNormalizer env ignore overrides = .ok n ∧
      n.patches = (ignore ++ overrideDeclarations env overrides).flatMap
        (fun d => d.JSONPointers.map (compiledRule d)) ∧
      ∀ kv ∈ overrides, (getGroupKindForOverrideKey kv.1).2.2 ≠ none →
        ∀ s, kv.2.IgnoreDifferences ≠ "" → env.yamlUnmarshal kv.2.IgnoreDifferences = .ok s →
          ResourceIgnoreDifferences.mk "" "" "" "" s.JSONPointers ∈
              overrideDeclarations env overrides ∧
            ∀ path ∈ s.JSONPointers,
              compiledRule (ResourceIgnoreDifferences.mk "" "" "" "" s.JSONPointers) path ∈
                  n.patches ∧
                ∀ un : R, (env.GroupVersionKind un).Kind ≠ "" →
                  compiledRule (ResourceIgnoreDifferences.mk "" "" "" "" s.JSONPointers) path ∉
                    ignoreNormalizer.matched env n un := by
  refine ⟨_, newIgnoreNormalizer_of_parse env ignore overrides hparse, rfl, ?_⟩
  intro kv hkv hmal s hb hs
  obtain ⟨hg, hk⟩ := getGroupKindForOverrideKey_malformed kv.1 hmal
  have hmem := mem_overrideDeclarations env overrides kv s hkv hb hs
  rw [hg, hk] at hmem
  refine ⟨hmem, ?_⟩
  intro path hpath
  refine ⟨?_, ?_⟩
  · simp only [List.mem_flatMap]
    exact ⟨_, List.mem_append_right _ hmem, List.mem_map.mpr ⟨path, hpath, rfl⟩⟩
  · intro un hkind hsel
    have hm := ((mem_matched_iff env _ un _).mp hsel).2
    have := congrArg GroupKind.Kind hm.1
    exact hkind (by simpa [GroupVersionKind.GroupKind, compiledRule] using this)

/-- C12, with a direct declaration, a record with the malformed key `apps/v1/Deployment` and a
record for ConfigMap. -/
theorem malformed_override_key_tolerated_witness :
    ∃ n : ignoreNormalizer,
      NewIgnoreNormalizer unstructuredEnv [ignoreReplicas] overridesWithMalformedKey = .ok n ∧
      n.patches = ([ignoreReplicas] ++
          overrideDeclarations unstructuredEnv overridesWithMalformedKey).flatMap
        (fun d => d.JSONPointers.map (compiledRule d)) ∧
      n.patches = [compiledRule ignoreReplicas "/spec/replicas",
        compiledRule ignoreSecretNoGroupKind "/data/secret",
        compiledRule ignoreSecret "/data/secret"] :=
  (malformed_override_key_tolerated unstructuredEnv [ignoreReplicas] overridesWithMalformedKey
    (by
      intro kv hkv _
      simp only [overridesWithMalformedKey, List.mem_cons, List.mem_singleton,
        List.not_mem_nil, or_false] at hkv
      rcases hkv with rfl | rfl
      · exact ⟨{ JSONPointers := ["/data/secret"] }, by decide⟩
      · exact ⟨{ JSONPointers := ["/data/secret"] }, by decide⟩)).elim
    (fun n h => ⟨n, h.1, h.2.1, h.2.1.trans (by decide)⟩)

/-- C13, refuted: the declaration with the paths `/items/0` and `/items/0` compiles to the same
rule twice; on a list of three items Normalize with this rule set removes two items, Normalize
with the rule set without the later duplicate removes one. -/
theorem duplicate_array_removals_differ :
    NewIgnoreNormalizer unstructuredEnv [ignoreFirstItemTwice] [] =
        .ok { patches := [listRule "/items/0", listRule "/items/0"] } ∧
      withoutLaterDuplicates [listRule "/items/0", listRule "/items/0"] =
        [listRule "/items/0"] ∧
      ignoreNormalizer.Normalize unstructuredEnv
        { patches := [listRule "/items/0", listRule "/items/0"] } sampleList =
        ({ Object := [("apiVersion", .str "v1"), ("kind", .str "List"),
          ("items", .arr [.str "c"])] }, none) ∧
      ignoreNormalizer.Normalize unstructuredEnv
        { patches := withoutLaterDuplicates [listRule "/items/0", listRule "/items/0"] }
        sampleList =
        ({ Object := [("apiVersion", .str "v1"), ("kind", .str "List"),
          ("items", .arr [.str "b", .str "c"])] }, none) := by
  refine ⟨?_, ?_, ?_, ?_⟩ <;> decide

/-- C13, amended: duplicate removals of object fields are harmless. For a compiled rule set in
which no path ends in an array index and every resource, Normalize with the rule set and
Normalize with the rule set without its later duplicates give the same result. -/
theorem duplicates_harmless_for_key_removals {R : Type} (env : Env R)
    (ignore : List ResourceIgnoreDifferences) (overrides : List (String × ResourceOverride))
    (n : ignoreNormalizer) (un : R)
    (hn : NewIgnoreNormalizer env ignore overrides = .ok n)
    (hpaths : ∀ d ∈ ignore ++ overrideDeclarations env overrides,
      ∀ path ∈ d.JSONPointers, endsInKey path = true) :
    ignoreNormalizer.Normalize env n un =
      ignoreNormalizer.Normalize env { patches := withoutLaterDuplicates n.patches } un := by
  have hrules : ∀ r ∈ n.patches, ∃ path, r.patch = removePatch path ∧ endsInKey path = true := by
    intro r hr
    rw [newIgnoreNormalizer_ok env ignore overrides n hn, List.mem_flatMap] at hr
    obtain ⟨d, hd, hrd⟩ := hr
    obtain ⟨path, hpath, rfl⟩ := List.mem_map.mp hrd
    exact ⟨path, rfl, hpaths d hd path hpath⟩
  have hfold : ∀ d : Json,
      (ignoreNormalizer.matched env n un).foldl applyOrSkip d =
        (ignoreNormalizer.matched env { patches := withoutLaterDuplicates n.patches } un).foldl
          applyOrSkip d := by
    intro d
    rw [matched_eq_filter, matched_eq_filter]
    exact foldl_applyOrSkip_withoutLaterDuplicates _ n.patches [] d (by simpa using hrules)
      (by simp)
  have hlen : (ignoreNormalizer.matched env n un).length = 0 ↔
      (ignoreNormalizer.matched env { patches := withoutLaterDuplicates n.patches } un).length
        = 0 := by
    rw [matched_eq_filter, matched_eq_filter, List.length_eq_zero, List.length_eq_zero,
      List.filter_eq_nil_iff, List.filter_eq_nil_iff]
    constructor
    · intro h r hr
      exact h r (mem_of_mem_withoutLaterDuplicatesFrom _ _ r hr)
    · intro h r hr
      exact h r (mem_withoutLaterDuplicatesFrom _ [] r hr (by simp))
  unfold ignoreNormalizer.Normalize
  by_cases h0 : (ignoreNormalizer.matched env n un).length = 0
  · simp only [h0, hlen.mp h0, if_true]
  · rw [if_neg h0, if_neg (fun h => h0 (hlen.mpr h))]
    cases env.Marshal un with
    | error e => rfl
    | ok docData => simp only [applyLoop_eq_foldl, hfold]

/-- C13 amended, at the sample Deployment with the rule `/spec/replicas` compiled twice. -/
theorem duplicates_harmless_for_key_removals_witness :
    ignoreNormalizer.Normalize unstructuredEnv
        { patches := [compiledRule ignoreReplicas "/spec/replicas",
          compiledRule ignoreReplicas "/spec/replicas"] } sampleDeployment =
      ignoreNormalizer.Normalize unstructuredEnv
        { patches := withoutLaterDuplicates [compiledRule ignoreReplicas "/spec/replicas",
          compiledRule ignoreReplicas "/spec/replicas"] } sampleDeployment :=
  duplicates_harmless_for_key_removals unstructuredEnv [ignoreReplicas, ignoreReplicas] []
    { patches := [compiledRule ignoreReplicas "/spec/replicas",
        compiledRule ignoreReplicas "/spec/replicas"] } sampleDeployment (by decide) (by decide)

/-- C14. Match predicate: the rules Normalize selects are exactly the rules r of the rule set,
in rule-set order, with r.groupKind equal to the (group, kind) of the resource, r.namespace
empty or equal to the namespace of the resource, and r.name empty or equal to its name. There
is no precedence: every rule of the rule set that satisfies the predicate is selected, and a
rule naming another name or another namespace is not. -/
theorem match_predicate {R : Type} (env : Env R) (n : ignoreNormalizer) (un : R) :
    ignoreNormalizer.matched env n un =
        n.patches.filter (fun r => decide
          (r.groupKind = (env.GroupVersionKind un).GroupKind ∧
            (r.namespace_ = "" ∨ r.namespace_ = env.GetNamespace un) ∧
            (r.name = "" ∨ r.name = env.GetName un))) ∧
      (∀ r ∈ n.patches, r.groupKind = (env.GroupVersionKind un).GroupKind →
        (r.namespace_ = "" ∨ r.namespace_ = env.GetNamespace un) →
        (r.name = "" ∨ r.name = env.GetName un) →
        r ∈ ignoreNormalizer.matched env n un) ∧
      (∀ r, (r.name ≠ "" ∧ r.name ≠ env.GetName un) ∨
          (r.namespace_ ≠ "" ∧ r.namespace_ ≠ env.GetNamespace un) →
        r ∉ ignoreNormalizer.matched env n un) := by
  refine ⟨?_, ?_, ?_⟩
  · rw [matched_eq_filter]
    apply List.filter_congr
    intro r _
    simp only [ignoreNormalizer.isMatch, decide_eq_decide]
    constructor
    · rintro ⟨h1, h2, h3⟩; exact ⟨h1.symm, h3, h2⟩
    · rintro ⟨h1, h2, h3⟩; exact ⟨h1.symm, h3, h2⟩
  · intro r hr h1 h2 h3
    exact (mem_matched_iff env n un r).mpr ⟨hr, h1.symm, h3, h2⟩
  · intro r h hmem
    obtain ⟨_, _, h3, h2⟩ := (mem_matched_iff env n un r).mp hmem
    rcases h with ⟨ha, hb⟩ | ⟨ha, hb⟩
    · rcases h3 with h | h
      · exact ha h
      · exact hb h
    · rcases h2 with h | h
      · exact ha h
      · exact hb h

/-- C14, at the sample Deployment (namespace `prod`, name `web`) with a wildcard rule, a rule
naming `web`, a rule naming `api` and a rule naming the namespace `dev`: the first two are
selected, in rule-set order. -/
theorem match_predicate_witness :
    ignoreNormalizer.matched unstructuredEnv
      { patches := [namedDeploymentRule "" "" "/spec/replicas",
          namedDeploymentRule "" "api" "/spec/paused",
          namedDeploymentRule "prod" "web" "/status",
          namedDeploymentRule "dev" "" "/metadata/labels"] } sampleDeployment =
      [namedDeploymentRule "" "" "/spec/replicas", namedDeploymentRule "prod" "web" "/status"] :=
  (match_predicate unstructuredEnv
    { patches := [namedDeploymentRule "" "" "/spec/replicas",
        namedDeploymentRule "" "api" "/spec/paused",
        namedDeploymentRule "prod" "web" "/status",
        namedDeploymentRule "dev" "" "/metadata/labels"] } sampleDeployment).1.trans (by decide)

/-- C16, refuted: the string `x/kind` is not a JSON pointer; the declaration holding it compiles
to one rule, the segments after its first `/` are `kind`, and on the sample Deployment the
removal is applied, not skipped: the kind is removed and Normalize returns the error of the
final deserialization. -/
theorem invalid_path_is_applied :
    NewIgnoreNormalizer unstructuredEnv [ignoreKindNoLeadingSlash] [] =
        .ok { patches := [compiledRule ignoreKindNoLeadingSlash "x/kind"] } ∧
      jsonPointerKeys "x/kind" = ["kind"] ∧
      (compiledRule ignoreKindNoLeadingSlash "x/kind").patch.Apply
          (.obj sampleDeployment.Object) =
        .ok (.obj (fieldsDelete "kind" sampleDeployment.Object)) ∧
      ignoreNormalizer.applyLoop [compiledRule ignoreKindNoLeadingSlash "x/kind"]
          (.obj sampleDeployment.Object) ≠ .obj sampleDeployment.Object ∧
      (ignoreNormalizer.Normalize unstructuredEnv
        { patches := [compiledRule ignoreKindNoLeadingSlash "x/kind"] } sampleDeployment).2 =
        some "Object 'Kind' is missing" := by
  refine ⟨?_, ?_, ?_, ?_, ?_⟩ <;> decide

/-- C16, amended: NewIgnoreNormalizer fails exactly when some override has a non-empty blob
that fails to parse, whatever the path strings of the declarations are. Encoding a removal
operation and decoding it into a patch succeeds for every path string. In Normalize a removal
that fails is skipped, the document going on as it is; the removal of a string without `/`,
such as the empty string, fails on every document; a string with text before its first `/` is
applied as the segments after that `/` alone, so two strings with the same segments remove the
same field from the same documents. -/
theorem compile_fails_iff_blob_unparsable {R : Type} (env : Env R)
    (ignore : List ResourceIgnoreDifferences) (overrides : List (String × ResourceOverride)) :
    ((∃ err, NewIgnoreNormalizer env ignore overrides = .error err) ↔
      ∃ kv ∈ overrides, kv.2.IgnoreDifferences ≠ "" ∧
        ∃ err, env.yamlUnmarshal kv.2.IgnoreDifferences = .error err) ∧
    (∀ path : String, ∃ patchData patch,
      json.Marshal [[("op", "remove"), ("path", path)]] = .ok patchData ∧
        jsonpatch.DecodePatch patchData = .ok patch) ∧
    (∀ (rule : normalizerPatch) (rest : List normalizerPatch) (doc : Json) (err : Error),
      rule.patch.Apply doc = .error err →
        ignoreNormalizer.applyLoop (rule :: rest) doc = ignoreNormalizer.applyLoop rest doc) ∧
    (∀ (path : String) (doc : Json), jsonPointerKeys path = [] →
      ∃ err, (removePatch path).Apply doc = .error err) ∧
    (∀ (path path' : String) (doc doc' : Json), jsonPointerKeys path = jsonPointerKeys path' →
      ((removePatch path).Apply doc = .ok doc' ↔ (removePatch path').Apply doc = .ok doc')) := by
  refine ⟨⟨?_, ?_⟩, ?_, ?_, ?_, ?_⟩
  · rintro ⟨err, herr⟩
    by_contra hno
    have hparse : ∀ kv ∈ overrides, kv.2.IgnoreDifferences ≠ "" →
        ∃ s, env.yamlUnmarshal kv.2.IgnoreDifferences = .ok s := by
      intro kv hkv hb
      cases hy : env.yamlUnmarshal kv.2.IgnoreDifferences with
      | ok s => exact ⟨s, rfl⟩
      | error e => exact absurd ⟨kv, hkv, hb, e, hy⟩ hno
    rw [newIgnoreNormalizer_of_parse env ignore overrides hparse] at herr
    cases herr
  · intro h
    obtain ⟨err, herr⟩ := appendOverrides_error env overrides ignore h
    exact ⟨err, by simp [NewIgnoreNormalizer, herr]⟩
  · intro path
    exact ⟨_, removePatch path, rfl, by
      simp [jsonpatch.DecodePatch, decodeOperations, removePatch]⟩
  · intro rule rest doc err h
    simp [ignoreNormalizer.applyLoop, h]
  · intro path doc hkeys
    rw [apply_removePatch_error, hkeys]
    exact ⟨_, rfl⟩
  · intro path path' doc doc' hkeys
    rw [apply_removePatch_ok, apply_removePatch_ok, hkeys]

/-- C16 amended, with a declaration whose paths are not JSON pointers: the compilation succeeds
with one rule per string. -/
theorem compile_fails_iff_blob_unparsable_witness :
    (¬ ∃ err, NewIgnoreNormalizer unstructuredEnv [ignoreInvalidPaths]
        [("ConfigMap", { IgnoreDifferences := secretBlob })] = .error err) ∧
      NewIgnoreNormalizer unstructuredEnv [ignoreInvalidPaths]
        [("ConfigMap", { IgnoreDifferences := secretBlob })] =
        .ok { patches := [compiledRule ignoreInvalidPaths "",
          compiledRule ignoreInvalidPaths "spec.replicas",
          compiledRule ignoreInvalidPaths "/spec/~2",
          compiledRule ignoreSecret "/data/secret"] } :=
  ⟨fun h => by
      obtain ⟨kv, hkv, _, err, herr⟩ :=
        (compile_fails_iff_blob_unparsable unstructuredEnv [ignoreInvalidPaths]
          [("ConfigMap", { IgnoreDifferences := secretBlob })]).1.mp h
      rw [List.mem_singleton] at hkv
      subst hkv
      have hok : unstructuredEnv.yamlUnmarshal secretBlob =
          .ok { JSONPointers := ["/data/secret"] } := by decide
      exact Except.noConfusion (hok.symm.trans herr),
    by decide⟩

/-- C17. Independence from the iteration order of the overrides: when the keys of the override
map are read as pairwise distinct (group, kind) pairs, and the compilation succeeds in one
iteration order, it succeeds in every other order, at most one override-derived declaration has
the group and kind of a given resource, and the two rule sets select the same rules for every
resource and give the same Normalize result. -/
theorem override_order_independent {R : Type} (env : Env R)
    (ignore : List ResourceIgnoreDifferences) (o₁ o₂ : List (String × ResourceOverride))
    (n₁ : ignoreNormalizer) (hperm : o₁.Perm o₂)
    (hdistinct : (o₁.map overrideGroupKind).Nodup)
    (h₁ : NewIgnoreNormalizer env ignore o₁ = .ok n₁) :
    ∃ n₂ : ignoreNormalizer, NewIgnoreNormalizer env ignore o₂ = .ok n₂ ∧
      ∀ un : R,
        ((overrideDeclarations env o₁).filter (fun d => decide ((d.Group, d.Kind) =
          ((env.GroupVersionKind un).Group, (env.GroupVersionKind un).Kind)))).length ≤ 1 ∧
        ignoreNormalizer.matched env n₁ un = ignoreNormalizer.matched env n₂ un ∧
        ignoreNormalizer.Normalize env n₁ un = ignoreNormalizer.Normalize env n₂ un := by
  have hparse₂ : ∀ kv ∈ o₂, kv.2.IgnoreDifferences ≠ "" →
      ∃ s, env.yamlUnmarshal kv.2.IgnoreDifferences = .ok s :=
    fun kv hkv => parse_of_newIgnoreNormalizer_ok env ignore o₁ n₁ h₁ kv (hperm.mem_iff.mpr hkv)
  refine ⟨_, newIgnoreNormalizer_of_parse env ignore o₂ hparse₂, ?_⟩
  intro un
  have hnodup : ((overrideDeclarations env o₁).map (fun d => (d.Group, d.Kind))).Nodup :=
    (overrideDeclarations_groupKind_sublist env o₁).nodup hdistinct
  have hlen := filter_groupKind_length_le_one (overrideDeclarations env o₁)
    ((env.GroupVersionKind un).Group, (env.GroupVersionKind un).Kind) hnodup
  have hfilter : (overrideDeclarations env o₁).filter (fun d => decide ((d.Group, d.Kind) =
        ((env.GroupVersionKind un).Group, (env.GroupVersionKind un).Kind))) =
      (overrideDeclarations env o₂).filter (fun d => decide ((d.Group, d.Kind) =
        ((env.GroupVersionKind un).Group, (env.GroupVersionKind un).Kind))) :=
    perm_eq_of_length_le_one _ _ ((overrideDeclarations_perm env o₁ o₂ hperm).filter _) hlen
  have hq : ∀ d path, decide (ignoreNormalizer.isMatch env un (compiledRule d path)) = true →
      decide ((d.Group, d.Kind) =
        ((env.GroupVersionKind un).Group, (env.GroupVersionKind un).Kind)) = true := by
    intro d path hr
    have h := (of_decide_eq_true hr).1
    have hg := congrArg GroupKind.Group h
    have hk := congrArg GroupKind.Kind h
    simp only [GroupVersionKind.GroupKind, compiledRule] at hg hk
    exact decide_eq_true (by rw [← hg, ← hk])
  have hmatched : ignoreNormalizer.matched env n₁ un =
      ignoreNormalizer.matched env
        (ignoreNormalizer.mk ((ignore ++ overrideDeclarations env o₂).flatMap
          (fun d => d.JSONPointers.map (compiledRule d)))) un := by
    rw [matched_eq_filter, matched_eq_filter,
      newIgnoreNormalizer_ok env ignore o₁ n₁ h₁]
    simp only [List.flatMap_append, List.filter_append]
    rw [filter_flatMap_compiledRule _ _ hq (overrideDeclarations env o₁),
      filter_flatMap_compiledRule _ _ hq (overrideDeclarations env o₂), hfilter]
  exact ⟨hlen, hmatched, normalize_congr_matched env _ _ un hmatched⟩

/-- C17, with the overrides for ConfigMap and for Deployments of group `apps` in the two
orders. -/
theorem override_order_independent_witness :
    ∃ n₂ : ignoreNormalizer,
      NewIgnoreNormalizer unstructuredEnv [ignoreTwoPaths]
        [("apps/Deployment", { IgnoreDifferences := replicasBlob }),
         ("ConfigMap", { IgnoreDifferences := secretBlob })] = .ok n₂ ∧
      ∀ un : Unstructured,
        ((overrideDeclarations unstructuredEnv
          [("ConfigMap", { IgnoreDifferences := secretBlob }),
           ("apps/Deployment", { IgnoreDifferences := replicasBlob })]).filter
            (fun d => decide ((d.Group, d.Kind) =
              ((unstructuredEnv.GroupVersionKind un).Group,
                (unstructuredEnv.GroupVersionKind un).Kind)))).length ≤ 1 ∧
        ignoreNormalizer.matched unstructuredEnv
          { patches := [compiledRule ignoreTwoPaths "/spec/replicas",
            compiledRule ignoreTwoPaths "/metadata/labels",
            compiledRule ignoreSecret "/data/secret", deploymentRule "/spec/replicas"] } un =
          ignoreNormalizer.matched unstructuredEnv n₂ un ∧
        ignoreNormalizer.Normalize unstructuredEnv
          { patches := [compiledRule ignoreTwoPaths "/spec/replicas",
            compiledRule ignoreTwoPaths "/metadata/labels",
            compiledRule ignoreSecret "/data/secret", deploymentRule "/spec/replicas"] } un =
          ignoreNormalizer.Normalize unstructuredEnv n₂ un :=
  override_order_independent unstructuredEnv [ignoreTwoPaths]
    [("ConfigMap", { IgnoreDifferences := secretBlob }),
     ("apps/Deployment", { IgnoreDifferences := replicasBlob })]
    [("apps/Deployment", { IgnoreDifferences := replicasBlob }),
     ("ConfigMap", { IgnoreDifferences := secretBlob })]
    _ (List.Perm.swap _ _ _) (by decide) (by decide)

/-- C18. Rule selection ignores the API version: for two resources with the same group, kind,
namespace and name, whatever their versions, Normalize selects the same rules in the same
order. -/
theorem selection_ignores_version {R : Type} (env : Env R) (n : ignoreNormalizer) (un₁ un₂ : R)
    (hgroup : (env.GroupVersionKind un₁).Group = (env.GroupVersionKind un₂).Group)
    (hkind : (env.GroupVersionKind un₁).Kind = (env.GroupVersionKind un₂).Kind)
    (hns : env.GetNamespace un₁ = env.GetNamespace un₂)
    (hname : env.GetName un₁ = env.GetName un₂) :
    ignoreNormalizer.matched env n un₁ = ignoreNormalizer.matched env n un₂ := by
  apply matched_congr env n un₂ un₁ _ hname hns
  simp [GroupVersionKind.GroupKind, hgroup, hkind]

/-- C18, at the sample Deployment in versions `apps/v1` and `apps/v1beta1`. -/
theorem selection_ignores_version_witness :
    (unstructuredEnv.GroupVersionKind sampleDeployment).Version ≠
        (unstructuredEnv.GroupVersionKind sampleDeploymentBeta).Version ∧
      ignoreNormalizer.matched unstructuredEnv
          { patches := [deploymentRule "/spec/replicas", listRule "/items/0"] } sampleDeployment =
        ignoreNormalizer.matched unstructuredEnv
          { patches := [deploymentRule "/spec/replicas", listRule "/items/0"] }
          sampleDeploymentBeta :=
  ⟨by decide, selection_ignores_version unstructuredEnv
    { patches := [deploymentRule "/spec/replicas", listRule "/items/0"] } sampleDeployment
    sampleDeploymentBeta (by decide) (by decide) (by decide) (by decide)⟩
